import Mathlib

/-!
Shallow embedding of the recursive-feature-elimination core of
`sklearn-extensions` (`feature_selection/_rfe.py`): the step scheduler
(`ExtendedRFE._get_steps`), the elimination engine (`_rfe_fit`), the
selection / rollback logic (`ExtendedRFE.fit`) and the pieces of the
cross-validated tuner (`ExtendedRFECV.fit`) that the claims refer to.

Machine integers of the source are Python arbitrary-precision integers,
modelled as `Nat` / `Int`; floats used for the `step` / `tune_step_at` /
`tuning_step` parameters are modelled as `ℚ` (Python `int(x)` truncation
on the non-negative values appearing here is `⌊x⌋₊`).  `numpy.argsort` is
modelled by a sort that is stable; numpy leaves the order of ties
unspecified, and no claim depends on the tie order.
-/

/-- Python `int()` truncation of a non-negative rational (executable form of
`⌊q⌋₊`, which does not kernel-reduce for `ℚ`). -/
def ratFloorNat (q : ℚ) : Nat := (q.num / (q.den : Int)).toNat

theorem ratFloorNat_eq (q : ℚ) : ratFloorNat q = ⌊q⌋₊ := by
  rw [← Int.floor_toNat, ratFloorNat, Rat.floor_def]

/-- Errors raised by the embedded code. `valueError` models Python
`ValueError`; `unsupportedEstimator` models the `RuntimeError` of
`_rfe_fit` lines 59-60 ("The classifier does not expose ..." );
`unboundLocal` models Python `UnboundLocalError` (a local read before any
assignment); `attributeError` models the `AttributeError` of reading
`self.support_` when the scan of `ExtendedRFE.fit` never broke;
`fuelExhausted` is the out-of-fuel marker of the loop model and is proven
unreachable for valid configurations. -/
inductive RfeErr where
  | valueError (msg : String)
  | unsupportedEstimator
  | unboundLocal
  | attributeError
  | fuelExhausted
  deriving DecidableEq

/-- The wrapped estimator, abstracted to what `_rfe.py` reads from it after
`clone(...).fit(X[:, features], y)`: whether the fitted object exposes
`coef_` / `feature_importances_` (both may depend on the feature subset the
fit was done on), and the exposed values.  `coefs features f` is the list of
per-output coefficients of feature `f` (a column of the possibly 2-dim
`coef_`); `featImps features f` is the entry of the 1-dim
`feature_importances_` for feature `f`. -/
structure RfeEstimator where
  hasCoef : List Nat → Bool
  hasFeatImp : List Nat → Bool
  coefs : List Nat → Nat → List ℚ
  featImps : List Nat → Nat → ℚ

/-- Importance extraction of `_rfe_fit` lines 53-60: prefer `coef_`, fall
back to `feature_importances_`, otherwise raise. -/
def getImportances (e : RfeEstimator) (features : List Nat) : Except RfeErr (Nat → List ℚ) :=
  if e.hasCoef features then .ok (e.coefs features)
  else if e.hasFeatImp features then .ok (fun f => [e.featImps features f])
  else .error .unsupportedEstimator

/-- Importance extraction of the rollback path, `ExtendedRFE.fit` lines
305-308: same two `hasattr` probes but *no* `else` branch, so when neither
attribute exists the local `coefs` is read unassigned at line 311 and
Python raises `UnboundLocalError` instead. -/
def getImportancesRollback (e : RfeEstimator) (features : List Nat) :
    Except RfeErr (Nat → List ℚ) :=
  if e.hasCoef features then .ok (e.coefs features)
  else if e.hasFeatImp features then .ok (fun f => [e.featImps features f])
  else .error .unboundLocal

/-- `safe_sqr(coefs[...]).sum(axis=0)` reduced to one feature: the sum of
squares of the per-output coefficients (`_rfe.py` lines 65-68; for a 1-dim
`coef_` the list is a singleton and this is just the square). -/
def sqSum (cs : List ℚ) : ℚ := (cs.map (fun c => c * c)).sum

/-- `np.union1d` of two disjoint sorted index lists (line 49). -/
def sortedUnion (a b : List Nat) : List Nat := List.insertionSort (· ≤ ·) (a ++ b)

/-- `remaining_features[ranks]` where `ranks = np.argsort(safe_sqr(...))`
(lines 63-71, 79-80): the remaining features reordered by ascending
squared-importance. -/
def rankRemaining (imp : Nat → List ℚ) (remaining : List Nat) : List Nat :=
  List.insertionSort (fun x y => sqSum (imp x) ≤ sqSum (imp y)) remaining

/-- Helper of `setFalse`, walking the mask with the current index. -/
def setFalseFrom (elim : List Nat) : Nat → List Bool → List Bool
  | _, [] => []
  | i, b :: bs => (b && !(elim.contains i)) :: setFalseFrom elim (i + 1) bs

/-- `support[eliminate_features] = False` (line 84 and line 321). -/
def setFalse (s : List Bool) (elim : List Nat) : List Bool := setFalseFrom elim 0 s

/-- `ranking[np.logical_not(support)] += 1` (line 85 and line 322). -/
def bumpRanks (r : List Nat) (s : List Bool) : List Nat :=
  List.zipWith (fun rv sv => if sv then rv else rv + 1) r s

/-- One elimination round of `_rfe_fit` as recorded by the model: the
remaining eliminable features in importance order (`remaining_features[ranks]`),
the block removed this round, and the resulting support / ranking rows. -/
structure RfeRound where
  ranked : List Nat
  eliminated : List Nat
  support : List Bool
  ranking : List Nat
  deriving DecidableEq

/-- The elimination loop of `_rfe_fit` (lines 43-87), one `RfeRound` per
entry of `steps`, carrying the remaining eliminable features and the
current support / ranking rows. -/
def rfeSteps (e : RfeEstimator) (keep : List Nat) :
    List Nat → List Nat → List Bool → List Nat → Except RfeErr (List RfeRound)
  | [], _, _, _ => .ok []
  | step :: steps, remaining, support, ranking =>
    match getImportances e (sortedUnion remaining keep) with
    | .error er => .error er
    | .ok imp =>
      let ranked := rankRemaining imp remaining
      let eliminated := ranked.take step
      let remaining2 := List.insertionSort (· ≤ ·) (ranked.drop step)
      let support2 := setFalse support eliminated
      let ranking2 := bumpRanks ranking support2
      match rfeSteps e keep steps remaining2 support2 ranking2 with
      | .error er => .error er
      | .ok rest => .ok (⟨ranked, eliminated, support2, ranking2⟩ :: rest)

/-- Row 0 of `supports` (line 34): everything retained. -/
def initSupport (n : Nat) : List Bool := List.replicate n true

/-- Row 0 of `rankings` (line 35): all ranks 1. -/
def initRanking (n : Nat) : List Nat := List.replicate n 1

/-- `np.setdiff1d(np.arange(n), keep_features)` (lines 41-42). -/
def initRemaining (n : Nat) (keep : List Nat) : List Nat :=
  (List.range n).filter (fun i => !(keep.contains i))

/-- `_rfe_fit(base_estimator, X, y, fit_params, steps, keep_features)`:
the produced history, one round per step (round 0 is the initial all-true
row, exposed through `historyRows`). -/
def rfeFit (e : RfeEstimator) (n : Nat) (steps keep : List Nat) :
    Except RfeErr (List RfeRound) :=
  rfeSteps e keep steps (initRemaining n keep) (initSupport n) (initRanking n)

/-- The `(supports, rankings)` matrices returned by `_rfe_fit` (one row per
round, round 0 included), as a list of (support, ranking) pairs. -/
def historyRows (n : Nat) (rounds : List RfeRound) : List (List Bool × List Nat) :=
  (initSupport n, initRanking n) :: rounds.map (fun r => (r.support, r.ranking))

/-- `np.count_nonzero(support)`. -/
def countTrue (s : List Bool) : Nat := s.count true

/-- The scheduler parameters of `ExtendedRFE` (`step`, `tune_step_at`,
`tuning_step`, `reducing_step` of `__init__`, lines 223-234). -/
structure RfeConfig where
  step : ℚ
  tuneStepAt : Option ℚ
  tuningStep : ℚ
  reducingStep : Bool

/-- Lines 342-347 of `_get_steps`: precompute the integer `step` local.
When `step` is fractional and `reducing_step` is set, the Python local is
left unassigned until the loop (every loop use is guarded by that same
condition); the model returns the unused value 0 there. -/
def resolveStep (cfg : RfeConfig) (nFeatures : Nat) : Except RfeErr Nat :=
  if 1 ≤ cfg.step then .ok (ratFloorNat cfg.step)
  else if 0 < cfg.step ∧ cfg.step < 1 ∧ ¬cfg.reducingStep then
    .ok (ratFloorNat (max 1 (cfg.step * nFeatures)))
  else if cfg.step ≤ 0 then .error (.valueError "step must be > 0")
  else .ok 0

/-- Lines 349-363 of `_get_steps`: resolve `tune_step_at` to an integer,
validate its range, and precompute the integer `tuning_step` local (again 0
for the fractional-and-reducing case where the Python local stays
unassigned and unused).  A non-positive `tune_step_at` falls through both
branches and the range check at line 354 reads the unassigned local. -/
def resolveTuneParams (cfg : RfeConfig) (nFeatures nToSelect : Nat) :
    Except RfeErr (Option (Nat × Nat)) :=
  match cfg.tuneStepAt with
  | none => .ok none
  | some a =>
    match (if 1 ≤ a then .ok (ratFloorNat a)
           else if 0 < a ∧ a < 1 then .ok (ratFloorNat (max 1 (a * nFeatures)))
           else .error .unboundLocal : Except RfeErr Nat) with
    | .error er => .error er
    | .ok tsa =>
      if ¬(nToSelect < tsa ∧ tsa < nFeatures) then
        .error (.valueError "tune_step_at must be greater than n_features_to_select and less than initial number of features")
      else if 1 ≤ cfg.tuningStep then .ok (some (tsa, ratFloorNat cfg.tuningStep))
      else if 0 < cfg.tuningStep ∧ cfg.tuningStep < 1 ∧ ¬cfg.reducingStep then
        .ok (some (tsa, ratFloorNat (max 1 (cfg.tuningStep * tsa))))
      else if cfg.tuningStep ≤ 0 then .error (.valueError "tuning_step must be > 0")
      else .ok (some (tsa, 0))

/-- The loop body of `_get_steps` (lines 369-388): the elimination size for
the current `n_remaining_features`, given the precomputed tune parameters
and the mutable `step` local carried from the previous iteration. -/
def computeStep (cfg : RfeConfig) (tp : Option (Nat × Nat)) (remaining curStep : Nat) : Nat :=
  match tp with
  | some (tsa, tuningStep) =>
    if tsa < remaining then
      if 0 < cfg.step ∧ cfg.step < 1 ∧ cfg.reducingStep then
        ratFloorNat (max 1 (min ((remaining - tsa : Nat) : ℚ) (cfg.step * remaining)))
      else min (remaining - tsa) curStep
    else if 0 < cfg.tuningStep ∧ cfg.tuningStep < 1 ∧ cfg.reducingStep then
      ratFloorNat (max 1 (min ((remaining - 1 : Nat) : ℚ) (cfg.tuningStep * remaining)))
    else min (remaining - 1) tuningStep
  | none =>
    if 0 < cfg.step ∧ cfg.step < 1 ∧ cfg.reducingStep then
      ratFloorNat (max 1 (min ((remaining - 1 : Nat) : ℚ) (cfg.step * remaining)))
    else min (remaining - 1) curStep

/-- The `while n_remaining_features > 1` loop of `_get_steps` (lines
365-391), fuel-indexed; returns the emitted steps and the recorded
remaining-feature counts (one per iteration, the initial `n_features` entry
is prepended by `getSteps`).  `none` means the fuel ran out, which
`stepLoop_isSome` rules out for sufficient fuel. -/
def stepLoop (cfg : RfeConfig) (tp : Option (Nat × Nat)) :
    Nat → Nat → Nat → Option (List Nat × List Nat)
  | 0, remaining, _ => if 1 < remaining then none else some ([], [])
  | fuel + 1, remaining, curStep =>
    if 1 < remaining then
      let s := computeStep cfg tp remaining curStep
      match stepLoop cfg tp fuel (remaining - s) s with
      | none => none
      | some (st, cnts) => some (s :: st, (remaining - s) :: cnts)
    else some ([], [])

/-- `ExtendedRFE._get_steps(n_features, n_features_to_select)` (lines
340-395): returns `(steps, n_remaining_feature_steps)`. -/
def getSteps (cfg : RfeConfig) (nFeatures nToSelect : Nat) :
    Except RfeErr (List Nat × List Nat) :=
  match resolveStep cfg nFeatures with
  | .error er => .error er
  | .ok s0 =>
    match resolveTuneParams cfg nFeatures nToSelect with
    | .error er => .error er
    | .ok tp =>
      match stepLoop cfg tp nFeatures nFeatures s0 with
      | none => .error .fuelExhausted
      | some (steps, cnts) => .ok (steps, nFeatures :: cnts)

/-- The kept features of `ExtendedRFE.fit` lines 269-276:
`np.where(penalty_factor == 0)[0]` when a penalty-factor column is
configured, else the empty set. -/
def keepFeaturesOf (penalty : Option (List ℚ)) : List Nat :=
  match penalty with
  | none => []
  | some pf => (List.range pf.length).filter (fun i => pf.getD i 0 == 0)

/-- `_check_params` line 398-400: `n_features_to_select` must be at least 1
when given (the remaining checks are about the metadata table, enforced
here by the representation). -/
def checkParams (nToSelectOpt : Option Nat) : Except RfeErr Unit :=
  match nToSelectOpt with
  | some t =>
    if t < 1 then .error (.valueError "n_features_to_select must be >= 1") else .ok ()
  | none => .ok ()

/-- The undershoot rollback of `ExtendedRFE.fit` (lines 297-323): given the
*previous* round rows, refit for a fresh ranking and do one extra
elimination sized to land on the target.  Returns the new support and
ranking rows and the final feature set (`np.union1d(remaining, keep)`,
line 323).  `remaining.length - t` is Nat subtraction; on the one path
that reaches this code `remaining.length > t` holds, matching Python. -/
def rollbackElim (e : RfeEstimator) (keep : List Nat) (t : Nat)
    (support : List Bool) (ranking : List Nat) :
    Except RfeErr (List Bool × List Nat × List Nat) :=
  let features := (List.range support.length).filter (fun i => support.getD i false)
  let remaining := features.filter (fun i => !(keep.contains i))
  match getImportancesRollback e features with
  | .error er => .error er
  | .ok imp =>
    let ranked := rankRemaining imp remaining
    let stp := remaining.length - t
    let eliminated := ranked.take stp
    let remaining2 := List.insertionSort (· ≤ ·) (ranked.drop stp)
    let support2 := setFalse support eliminated
    let ranking2 := bumpRanks ranking support2
    .ok (support2, ranking2, sortedUnion remaining2 keep)

/-- The fitted state exposed by `ExtendedRFE.fit` (lines 331-336):
`support_`, `ranking_`, `n_features_ = np.count_nonzero(support_)`. -/
structure FitResult where
  support : List Bool
  ranking : List Nat
  nFeatures : Nat
  deriving DecidableEq

/-- `ExtendedRFE.fit` (lines 244-338) over a dataset with `nTotal` columns:
resolve kept features and the target, schedule, run `_rfe_fit`, then scan
the history for the first round whose eliminable count reached the target
(lines 289-334); adopt it on an exact hit, otherwise roll back one round.
With `rfe_idx = 0` the Python read `supports[rfe_idx - 1]` is `supports[-1]`,
the *last* row, which the `idx = 0` branch mirrors. -/
def extendedRFEFit (e : RfeEstimator) (cfg : RfeConfig) (nTotal : Nat)
    (penalty : Option (List ℚ)) (nToSelectOpt : Option Nat) :
    Except RfeErr FitResult :=
  match checkParams nToSelectOpt with
  | .error er => .error er
  | .ok _ =>
    let keep := keepFeaturesOf penalty
    let nFeatures := nTotal - keep.length
    let nToSelect := nToSelectOpt.getD (nFeatures / 2)
    match getSteps cfg nFeatures nToSelect with
    | .error er => .error er
    | .ok (steps, _) =>
      match rfeFit e nTotal steps keep with
      | .error er => .error er
      | .ok rounds =>
        let rows := historyRows nTotal rounds
        match rows.findIdx? (fun row => (countTrue row.1 : Int) - keep.length ≤ nToSelect) with
        | none => .error .attributeError
        | some idx =>
          let row := rows.getD idx ([], [])
          if (countTrue row.1 : Int) - keep.length = nToSelect then
            .ok ⟨row.1, row.2, countTrue row.1⟩
          else
            let prev := if idx = 0 then rows.getLastD ([], []) else rows.getD (idx - 1) ([], [])
            match rollbackElim e keep nToSelect prev.1 prev.2 with
            | .error er => .error er
            | .ok (s2, r2, _) => .ok ⟨s2, r2, countTrue s2⟩

/-- `np.argmax` (first index attaining the maximum) together with that
maximum value; `none` on the empty list. -/
def argmaxAux : List ℚ → Option (Nat × ℚ)
  | [] => none
  | x :: xs =>
    match argmaxAux xs with
    | none => some (0, x)
    | some (i, v) => if v ≤ x then some (0, x) else some (i + 1, v)

/-- `np.argmax` of a score list (0 on the empty list, which does not occur). -/
def argmaxIdx (l : List ℚ) : Nat := ((argmaxAux l).map Prod.fst).getD 0

/-- `np.sum(scores, axis=0)` over the per-fold score curves
(`ExtendedRFECV.fit` line 793), all of length `len`. -/
def sumCurves (len : Nat) (curves : List (List ℚ)) : List ℚ :=
  (List.range len).map (fun i => (curves.map (fun c => c.getD i 0)).sum)

/-- Modelled from the spec: `ExtendedRFE._fit`, invoked per fold by
`_rfe_single_fit` (line 106) to produce `rfe.scores_`, is not among the
provided sources (only its caller is).  Per the spec (section 4.4 and the
"Fold result" data model), a fold yields a score curve indexed by the
remaining-feature-count sequence: one held-out score per recorded count,
aligned with `n_remaining_feature_steps_`. -/
def foldScoreCurve (score : Nat → ℚ) (nrfs : List Nat) : List ℚ := nrfs.map score

/-- The winning-count selection of `ExtendedRFECV.fit` lines 796-799:
`n_remaining_feature_steps[::-1][np.argmax(scores[::-1])]`. -/
def rfecvSelect (nrfs : List Nat) (scores : List ℚ) : Nat :=
  nrfs.reverse.getD (argmaxIdx scores.reverse) 0

/-- Lines 801-809 of `ExtendedRFECV.fit`: resolve the configured
`tune_step_at` against the winning count `nToSelect` and disable it
(`None`) when `tune_step_at <= n_features_to_select`, keeping it otherwise
for the final full-data run. -/
def resolveTuneStepAtFinal (tsaOpt : Option ℚ) (nFeatures nToSelect : Nat) :
    Except RfeErr (Option Nat) :=
  match tsaOpt with
  | none => .ok none
  | some a =>
    if 1 ≤ a then
      .ok (if ratFloorNat a ≤ nToSelect then none else some (ratFloorNat a))
    else if 0 < a ∧ a < 1 then
      let t := ratFloorNat (max 1 (a * nFeatures))
      .ok (if t ≤ nToSelect then none else some t)
    else .error .unboundLocal

/-- Line 833 of `ExtendedRFECV.fit`:
`grid_scores_ = scores[::-1] / cv.get_n_splits(...)`. -/
def rfecvGridScores (scores : List ℚ) (nSplits : Nat) : List ℚ :=
  scores.reverse.map (fun q => q / (nSplits : ℚ))

/-- Decidable equality for `Except`, used to evaluate the model on concrete
inputs. -/
def exceptDecEq {ε α : Type} [DecidableEq ε] [DecidableEq α] :
    (a b : Except ε α) → Decidable (a = b)
  | .error x, .error y =>
    if h : x = y then .isTrue (by rw [h]) else .isFalse (by simp [h])
  | .error _, .ok _ => .isFalse (by simp)
  | .ok _, .error _ => .isFalse (by simp)
  | .ok x, .ok y =>
    if h : x = y then .isTrue (by rw [h]) else .isFalse (by simp [h])

instance {ε α : Type} [DecidableEq ε] [DecidableEq α] : DecidableEq (Except ε α) :=
  exceptDecEq

theorem one_le_ratFloorNat {q : ℚ} (h : 1 ≤ q) : 1 ≤ ratFloorNat q := by
  rw [ratFloorNat_eq]
  exact Nat.le_floor (by exact_mod_cast h)

theorem ratFloorNat_le {q : ℚ} {A : Nat} (h : q ≤ (A : ℚ)) : ratFloorNat q ≤ A := by
  rw [ratFloorNat_eq]
  calc ⌊q⌋₊ ≤ ⌊(A : ℚ)⌋₊ := Nat.floor_le_floor h
    _ = A := Nat.floor_natCast A

theorem computeStep_ge_one (cfg : RfeConfig) (tp : Option (Nat × Nat))
    (remaining curStep : Nat) (hrem : 1 < remaining)
    (hcur : ¬(0 < cfg.step ∧ cfg.step < 1 ∧ cfg.reducingStep) → 1 ≤ curStep)
    (htp : ∀ tsa ts, tp = some (tsa, ts) →
      ¬(0 < cfg.tuningStep ∧ cfg.tuningStep < 1 ∧ cfg.reducingStep) → 1 ≤ ts) :
    1 ≤ computeStep cfg tp remaining curStep := by
  match tp with
  | some (tsa, ts) =>
    have hts := htp tsa ts rfl
    simp only [computeStep]
    by_cases h1 : tsa < remaining
    · simp only [h1, if_true]
      by_cases h2 : 0 < cfg.step ∧ cfg.step < 1 ∧ cfg.reducingStep
      · simp only [h2, if_true]
        exact one_le_ratFloorNat (le_max_left _ _)
      · simp only [h2, if_false]
        have := hcur h2
        omega
    · simp only [h1, if_false]
      by_cases h3 : 0 < cfg.tuningStep ∧ cfg.tuningStep < 1 ∧ cfg.reducingStep
      · simp only [h3, if_true]
        exact one_le_ratFloorNat (le_max_left _ _)
      · simp only [h3, if_false]
        have := hts h3
        omega
  | none =>
    simp only [computeStep]
    by_cases h2 : 0 < cfg.step ∧ cfg.step < 1 ∧ cfg.reducingStep
    · simp only [h2, if_true]
      exact one_le_ratFloorNat (le_max_left _ _)
    · simp only [h2, if_false]
      have := hcur h2
      omega

theorem ratFloorNat_max_one_min_le {A : Nat} (q : ℚ) (hA : 1 ≤ A) :
    ratFloorNat (max 1 (min (A : ℚ) q)) ≤ A := by
  apply ratFloorNat_le
  apply max_le
  · exact_mod_cast hA
  · exact (min_le_left _ _).trans (le_refl _)

theorem computeStep_le (cfg : RfeConfig) (tp : Option (Nat × Nat))
    (remaining curStep : Nat) (hrem : 1 < remaining)
    (htsa : ∀ tsa ts, tp = some (tsa, ts) → 1 ≤ tsa) :
    computeStep cfg tp remaining curStep ≤ remaining - 1 := by
  match tp with
  | some (tsa, ts) =>
    have h0 := htsa tsa ts rfl
    simp only [computeStep]
    by_cases h1 : tsa < remaining
    · rw [if_pos h1]
      by_cases h2 : 0 < cfg.step ∧ cfg.step < 1 ∧ cfg.reducingStep
      · rw [if_pos h2]
        have := ratFloorNat_max_one_min_le (A := remaining - tsa)
          (cfg.step * remaining) (by omega)
        omega
      · rw [if_neg h2]
        omega
    · rw [if_neg h1]
      by_cases h3 : 0 < cfg.tuningStep ∧ cfg.tuningStep < 1 ∧ cfg.reducingStep
      · rw [if_pos h3]
        exact ratFloorNat_max_one_min_le _ (by omega)
      · rw [if_neg h3]
        omega
  | none =>
    simp only [computeStep]
    by_cases h2 : 0 < cfg.step ∧ cfg.step < 1 ∧ cfg.reducingStep
    · rw [if_pos h2]
      exact ratFloorNat_max_one_min_le _ (by omega)
    · rw [if_neg h2]
      omega

theorem computeStep_coarse_le (cfg : RfeConfig) (tsa ts remaining curStep : Nat)
    (h1 : tsa < remaining) :
    computeStep cfg (some (tsa, ts)) remaining curStep ≤ remaining - tsa := by
  simp only [computeStep]
  rw [if_pos h1]
  by_cases h2 : 0 < cfg.step ∧ cfg.step < 1 ∧ cfg.reducingStep
  · rw [if_pos h2]
    exact ratFloorNat_max_one_min_le _ (by omega)
  · rw [if_neg h2]
    omega

/-- The invariants of the `_get_steps` loop, as a relation between the
entry value of `n_remaining_features`, the emitted steps and the recorded
counts: every step is at least 1 and at most `remaining - 1`, each recorded
count is the previous remaining count minus the step, a coarse-phase step
never crosses the tuning transition, and the loop stops exactly at 1. -/
def SchedOk (tsaOpt : Option Nat) : Nat → List Nat → List Nat → Prop
  | r, [], cnts => cnts = [] ∧ r = 1
  | r, s :: st, cnts =>
    1 ≤ s ∧ s ≤ r - 1 ∧ (∀ tsa, tsaOpt = some tsa → tsa < r → tsa ≤ r - s) ∧
    ∃ cnts2, cnts = (r - s) :: cnts2 ∧ SchedOk tsaOpt (r - s) st cnts2

theorem stepLoop_total (cfg : RfeConfig) (tp : Option (Nat × Nat))
    (htp : ∀ tsa ts, tp = some (tsa, ts) →
      1 ≤ tsa ∧ (¬(0 < cfg.tuningStep ∧ cfg.tuningStep < 1 ∧ cfg.reducingStep) → 1 ≤ ts)) :
    ∀ fuel remaining curStep, remaining ≤ fuel → 1 ≤ remaining →
    (¬(0 < cfg.step ∧ cfg.step < 1 ∧ cfg.reducingStep) → 1 ≤ curStep) →
    ∃ st cnts, stepLoop cfg tp fuel remaining curStep = some (st, cnts) ∧
      SchedOk (tp.map Prod.fst) remaining st cnts := by
  intro fuel
  induction fuel with
  | zero => intro remaining curStep hf h1 _; omega
  | succ fuel ih =>
    intro remaining curStep hf h1 hc
    by_cases hr : 1 < remaining
    · have hs1 : 1 ≤ computeStep cfg tp remaining curStep :=
        computeStep_ge_one cfg tp remaining curStep hr hc
          (fun tsa ts h => (htp tsa ts h).2)
      have hs2 : computeStep cfg tp remaining curStep ≤ remaining - 1 :=
        computeStep_le cfg tp remaining curStep hr (fun tsa ts h => (htp tsa ts h).1)
      obtain ⟨st, cnts, heq, hok⟩ :=
        ih (remaining - computeStep cfg tp remaining curStep)
          (computeStep cfg tp remaining curStep) (by omega) (by omega) (fun _ => hs1)
      refine ⟨computeStep cfg tp remaining curStep :: st,
        (remaining - computeStep cfg tp remaining curStep) :: cnts, ?_, ?_⟩
      · simp only [stepLoop, hr, if_true, heq]
      · refine ⟨hs1, hs2, ?_, cnts, rfl, hok⟩
        intro tsa2 hmap hlt
        cases tp with
        | none => simp at hmap
        | some p =>
          obtain ⟨a, b⟩ := p
          have ha : a = tsa2 := by
            simpa using hmap
          subst ha
          have := computeStep_coarse_le cfg a b remaining curStep hlt
          omega
    · have : remaining = 1 := by omega
      subst this
      exact ⟨[], [], by simp [stepLoop], rfl, rfl⟩

theorem schedOk_sum {o : Option Nat} {st : List Nat} :
    ∀ {r cnts}, SchedOk o r st cnts → st.sum = r - 1 := by
  induction st with
  | nil => intro r cnts h; simp [SchedOk] at h; simp [h.2]
  | cons s st ih =>
    intro r cnts h
    obtain ⟨h1, h2, _, cnts2, _, hok⟩ := h
    have := ih hok
    simp only [List.sum_cons]
    omega

theorem schedOk_cnts_len {o : Option Nat} {st : List Nat} :
    ∀ {r cnts}, SchedOk o r st cnts → cnts.length = st.length := by
  induction st with
  | nil => intro r cnts h; simp [SchedOk] at h; simp [h.1]
  | cons s st ih =>
    intro r cnts h
    obtain ⟨_, _, _, cnts2, rfl, hok⟩ := h
    simp [ih hok]

theorem schedOk_chain {o : Option Nat} {st : List Nat} :
    ∀ {r cnts}, SchedOk o r st cnts → List.Chain' (fun a b => b < a) (r :: cnts) := by
  induction st with
  | nil => intro r cnts h; simp [SchedOk] at h; simp [h.1]
  | cons s st ih =>
    intro r cnts h
    obtain ⟨h1, h2, _, cnts2, rfl, hok⟩ := h
    exact List.Chain'.cons (by omega) (ih hok)

theorem schedOk_last {o : Option Nat} {st : List Nat} :
    ∀ {r cnts}, SchedOk o r st cnts → (r :: cnts).getLast? = some 1 := by
  induction st with
  | nil => intro r cnts h; simp [SchedOk] at h; simp [h.1, h.2]
  | cons s st ih =>
    intro r cnts h
    obtain ⟨_, _, _, cnts2, rfl, hok⟩ := h
    rw [List.getLast?_cons_cons]
    exact ih hok

theorem schedOk_bounds {o : Option Nat} {st : List Nat} :
    ∀ {r cnts}, SchedOk o r st cnts →
      ∀ k, k < st.length → 1 ≤ st.getD k 0 ∧ st.getD k 0 ≤ (r :: cnts).getD k 0 - 1 := by
  induction st with
  | nil => intro r cnts _ k hk; simp at hk
  | cons s st ih =>
    intro r cnts h k hk
    obtain ⟨h1, h2, _, cnts2, rfl, hok⟩ := h
    match k with
    | 0 => simpa using ⟨h1, h2⟩
    | k + 1 =>
      have := ih hok k (by simpa using hk)
      simpa using this

theorem schedOk_tsa_mem {tsa : Nat} {st : List Nat} :
    ∀ {r cnts}, SchedOk (some tsa) r st cnts → 1 ≤ tsa → tsa ≤ r → tsa ∈ r :: cnts := by
  induction st with
  | nil =>
    intro r cnts h h1 h2
    simp [SchedOk] at h
    have : tsa = r := by omega
    simp [this]
  | cons s st ih =>
    intro r cnts h h1 h2
    obtain ⟨hs1, hs2, hco, cnts2, rfl, hok⟩ := h
    by_cases he : tsa = r
    · simp [he]
    · have hlt : tsa < r := by omega
      have := hco tsa rfl hlt
      have := ih hok h1 (by omega)
      simp only [List.mem_cons] at this ⊢
      tauto

theorem resolveStep_pos {cfg : RfeConfig} {nF s0 : Nat}
    (h : resolveStep cfg nF = .ok s0) :
    ¬(0 < cfg.step ∧ cfg.step < 1 ∧ cfg.reducingStep) → 1 ≤ s0 := by
  intro hn
  unfold resolveStep at h
  split_ifs at h with h1 h2 h3
  · cases h
    exact one_le_ratFloorNat h1
  · cases h
    exact one_le_ratFloorNat (le_max_left _ _)
  · exfalso
    apply hn
    refine ⟨lt_of_not_le h3, lt_of_not_le h1, ?_⟩
    by_contra hred
    exact h2 ⟨lt_of_not_le h3, lt_of_not_le h1, hred⟩

theorem resolveTuneParams_facts {cfg : RfeConfig} {nF t : Nat}
    {tp : Option (Nat × Nat)} (h : resolveTuneParams cfg nF t = .ok tp) :
    ∀ tsa ts, tp = some (tsa, ts) →
      (t < tsa ∧ tsa < nF) ∧
      (¬(0 < cfg.tuningStep ∧ cfg.tuningStep < 1 ∧ cfg.reducingStep) → 1 ≤ ts) := by
  intro tsa ts htp
  subst htp
  unfold resolveTuneParams at h
  split at h
  · simp at h
  · split at h
    · cases h
    · split_ifs at h with hrange h1 h2 h3
      · simp only [Except.ok.injEq, Option.some.injEq, Prod.mk.injEq] at h
        obtain ⟨he1, he2⟩ := h
        subst he1
        exact ⟨hrange, fun _ => he2 ▸ one_le_ratFloorNat h1⟩
      · simp only [Except.ok.injEq, Option.some.injEq, Prod.mk.injEq] at h
        obtain ⟨he1, he2⟩ := h
        subst he1
        exact ⟨hrange, fun _ => he2 ▸ one_le_ratFloorNat (le_max_left _ _)⟩
      · simp only [Except.ok.injEq, Option.some.injEq, Prod.mk.injEq] at h
        obtain ⟨he1, he2⟩ := h
        subst he1
        refine ⟨hrange, fun hn => absurd ?_ hn⟩
        refine ⟨lt_of_not_le h3, lt_of_not_le h1, ?_⟩
        by_contra hred
        exact h2 ⟨lt_of_not_le h3, lt_of_not_le h1, hred⟩

theorem getSteps_spec {cfg : RfeConfig} {nF t s0 : Nat} {tp : Option (Nat × Nat)}
    (h1 : resolveStep cfg nF = .ok s0)
    (h2 : resolveTuneParams cfg nF t = .ok tp)
    (hn : 1 ≤ nF) :
    ∃ steps cnts, getSteps cfg nF t = .ok (steps, nF :: cnts) ∧
      SchedOk (tp.map Prod.fst) nF steps cnts := by
  have htp : ∀ tsa ts, tp = some (tsa, ts) →
      1 ≤ tsa ∧ (¬(0 < cfg.tuningStep ∧ cfg.tuningStep < 1 ∧ cfg.reducingStep) → 1 ≤ ts) := by
    intro tsa ts hh
    have hf := resolveTuneParams_facts h2 tsa ts hh
    exact ⟨by omega, hf.2⟩
  obtain ⟨st, cnts, heq, hok⟩ :=
    stepLoop_total cfg tp htp nF nF s0 le_rfl hn (resolveStep_pos h1)
  refine ⟨st, cnts, ?_, hok⟩
  simp only [getSteps, h1, h2, heq]

/-- C5: for every valid scheduler configuration (the `step` precomputation
succeeds, `tune_step_at` validation succeeds, and there is at least one
feature), the `_get_steps` loop terminates with an `ok` result; the
recorded remaining-feature-count sequence starts at `n_features`, strictly
decreases and ends at exactly 1; every emitted step is at least 1 and at
most `remaining - 1` for the count it was emitted at; and when a tuning
transition is configured the coarse phase lands exactly on the resolved
`tune_step_at` (it occurs among the recorded counts). -/
theorem claim_C5 (cfg : RfeConfig) (nF t s0 : Nat) (tp : Option (Nat × Nat))
    (h1 : resolveStep cfg nF = .ok s0)
    (h2 : resolveTuneParams cfg nF t = .ok tp)
    (hn : 1 ≤ nF) :
    ∃ steps nrfs, getSteps cfg nF t = .ok (steps, nrfs) ∧
      nrfs.head? = some nF ∧
      List.Chain' (fun a b => b < a) nrfs ∧
      nrfs.getLast? = some 1 ∧
      (∀ k, k < steps.length → 1 ≤ steps.getD k 0 ∧ steps.getD k 0 ≤ nrfs.getD k 0 - 1) ∧
      (∀ tsa ts, tp = some (tsa, ts) → tsa ∈ nrfs) := by
  obtain ⟨steps, cnts, heq, hok⟩ := getSteps_spec h1 h2 hn
  refine ⟨steps, nF :: cnts, heq, rfl, schedOk_chain hok, schedOk_last hok,
    schedOk_bounds hok, ?_⟩
  intro tsa ts htp
  subst htp
  have hf := resolveTuneParams_facts h2 tsa ts rfl
  exact schedOk_tsa_mem hok (by omega) (by omega)

/-- C2 (amended): the step sequence produced by `_get_steps` always sums to
`n_features - 1`, not `n_features - n_features_to_select`: the loop runs
down to a single remaining feature regardless of the target (the target is
applied later by the history scan of `fit`). -/
theorem claim_C2_amended (cfg : RfeConfig) (nF t : Nat) (steps nrfs : List Nat)
    (h : getSteps cfg nF t = .ok (steps, nrfs)) (hn : 1 ≤ nF) :
    steps.sum = nF - 1 := by
  unfold getSteps at h
  split at h
  · cases h
  next s0 h1 =>
    split at h
    · cases h
    next tp h2 =>
      split at h
      · cases h
      next st cnts heq =>
        obtain ⟨st2, cnts2, heq2, hok⟩ := getSteps_spec h1 h2 hn
        simp only [getSteps, h1, h2, heq] at heq2
        simp only [Except.ok.injEq, Prod.mk.injEq] at h heq2
        obtain ⟨hs, _⟩ := h
        obtain ⟨hs2, _⟩ := heq2
        subst hs
        rw [hs2]
        exact schedOk_sum hok

/-- C2 counterexample: with 10 features, `n_features_to_select = 5` and
`step = 1` the scheduler emits nine steps of 1 (summing to 9 = 10 - 1),
not the `[1,1,1,1,1]` (summing to 5 = 10 - 5) stated by the claim. -/
theorem claim_C2_counterexample :
    getSteps ⟨1, none, 1, false⟩ 10 5 =
      .ok ([1, 1, 1, 1, 1, 1, 1, 1, 1], [10, 9, 8, 7, 6, 5, 4, 3, 2, 1]) ∧
    ([1, 1, 1, 1, 1, 1, 1, 1, 1] : List Nat).sum ≠ 10 - 5 ∧
    ([1, 1, 1, 1, 1, 1, 1, 1, 1] : List Nat) ≠ [1, 1, 1, 1, 1] := by
  exact ⟨by decide, by decide, by decide⟩

/-- Witness for `claim_C2_amended` at the spec scenario of section 8
(20 features, fractional step 0.5, non-reducing). -/
theorem claim_C2_amended_witness :
    (getSteps ⟨1, none, 1, false⟩ 10 5 = .ok ([1, 1, 1, 1, 1, 1, 1, 1, 1],
      [10, 9, 8, 7, 6, 5, 4, 3, 2, 1])) ∧
    ([1, 1, 1, 1, 1, 1, 1, 1, 1] : List Nat).sum = 10 - 1 :=
  ⟨by decide, claim_C2_amended ⟨1, none, 1, false⟩ 10 5
    [1, 1, 1, 1, 1, 1, 1, 1, 1] [10, 9, 8, 7, 6, 5, 4, 3, 2, 1] (by decide) (by decide)⟩

/-- Witness for `claim_C5` at the spec scenario of section 8
(`tune_step_at = 5`, `tuning_step = 1`, coarse `step = 3`, 20 features,
target 1). -/
theorem claim_C5_witness :
    ∃ steps nrfs, getSteps ⟨3, some 5, 1, false⟩ 20 1 = .ok (steps, nrfs) ∧
      nrfs.head? = some 20 ∧
      List.Chain' (fun a b => b < a) nrfs ∧
      nrfs.getLast? = some 1 ∧
      (∀ k, k < steps.length → 1 ≤ steps.getD k 0 ∧ steps.getD k 0 ≤ nrfs.getD k 0 - 1) ∧
      (∀ tsa ts, (some (5, 1) : Option (Nat × Nat)) = some (tsa, ts) → tsa ∈ nrfs) :=
  claim_C5 ⟨3, some 5, 1, false⟩ 20 1 3 (some (5, 1)) (by decide) (by decide) (by decide)

theorem setFalseFrom_length (elim : List Nat) :
    ∀ (j : Nat) (s : List Bool), (setFalseFrom elim j s).length = s.length := by
  intro j s
  induction s generalizing j with
  | nil => rfl
  | cons b bs ih => simp [setFalseFrom, ih]

theorem setFalseFrom_getElem (elim : List Nat) :
    ∀ (s : List Bool) (j i : Nat) (h : i < s.length),
      (setFalseFrom elim j s).getD i false = (s[i] && !(elim.contains (j + i))) := by
  intro s
  induction s with
  | nil => intro j i h; simp at h
  | cons b bs ih =>
    intro j i h
    match i with
    | 0 => simp [setFalseFrom]
    | i + 1 =>
      have := ih (j + 1) i (by simpa using h)
      simpa [setFalseFrom, Nat.add_assoc, Nat.add_comm 1 i] using this

theorem setFalse_length (s : List Bool) (elim : List Nat) :
    (setFalse s elim).length = s.length := setFalseFrom_length elim 0 s

theorem setFalse_getD (s : List Bool) (elim : List Nat) (i : Nat) (h : i < s.length) :
    (setFalse s elim).getD i false = (s[i] && !(elim.contains i)) := by
  have := setFalseFrom_getElem elim s 0 i h
  simpa [setFalse] using this

/-- The support row determined by the retained eliminable features and the
kept features: entry `i` is true when `i` is in either list. -/
def rowOf (n : Nat) (rem keep : List Nat) : List Bool :=
  (List.range n).map (fun i => rem.contains i || keep.contains i)

theorem rowOf_length (n : Nat) (rem keep : List Nat) : (rowOf n rem keep).length = n := by
  simp [rowOf]

theorem rowOf_getD (n : Nat) (rem keep : List Nat) (i : Nat) (h : i < n) :
    (rowOf n rem keep).getD i false = (rem.contains i || keep.contains i) := by
  rw [List.getD_eq_getElem _ _ (by simpa [rowOf] using h)]
  simp [rowOf]

theorem rowOf_getD_oob (n : Nat) (rem keep : List Nat) (i : Nat) (h : ¬i < n) :
    (rowOf n rem keep).getD i false = false := by
  apply List.getD_eq_default
  simpa [rowOf] using Nat.le_of_not_lt h

theorem countP_or_disj (l : List Nat) (p q : Nat → Bool)
    (h : ∀ i ∈ l, ¬(p i = true ∧ q i = true)) :
    l.countP (fun i => p i || q i) = l.countP p + l.countP q := by
  induction l with
  | nil => simp
  | cons a l ih =>
    simp only [List.countP_cons]
    have hh := h a (by simp)
    have ih2 := ih (fun i hi => h i (by simp [hi]))
    cases hp : p a <;> cases hq : q a <;> simp_all <;> omega

theorem countP_contains_nodup (l rem : List Nat) (hl : l.Nodup) (hrem : rem.Nodup)
    (hsub : ∀ i ∈ rem, i ∈ l) :
    l.countP (fun i => rem.contains i) = rem.length := by
  rw [List.countP_eq_length_filter]
  have hperm : List.Perm (l.filter (fun i => rem.contains i)) rem := by
    rw [List.perm_ext_iff_of_nodup (hl.filter _) hrem]
    intro a
    simp only [List.mem_filter, List.elem_iff]
    exact ⟨fun hx => hx.2, fun hx => ⟨hsub a hx, hx⟩⟩
  exact hperm.length_eq

theorem countTrue_rowOf (n : Nat) (rem keep : List Nat) (hrem : rem.Nodup)
    (hrlt : ∀ i ∈ rem, i < n) (hkeep : keep.Nodup) (hklt : ∀ i ∈ keep, i < n)
    (hdisj : ∀ i ∈ keep, i ∉ rem) :
    countTrue (rowOf n rem keep) = rem.length + keep.length := by
  unfold countTrue rowOf
  rw [List.count_eq_countP, List.countP_map]
  have he : ((fun b => b == true) ∘ fun i => rem.contains i || keep.contains i) =
      fun i => rem.contains i || keep.contains i := by
    funext i
    simp
  rw [he, countP_or_disj _ _ _ (by
    intro i hi hand
    simp only [List.elem_iff] at hand
    exact hdisj i hand.2 hand.1)]
  rw [countP_contains_nodup _ _ (List.nodup_range n) hrem
    (fun i hi => List.mem_range.mpr (hrlt i hi))]
  rw [countP_contains_nodup _ _ (List.nodup_range n) hkeep
    (fun i hi => List.mem_range.mpr (hklt i hi))]

/-- The invariant carried by the `_rfe_fit` loop between rounds: the
remaining eliminable features are distinct, in range, disjoint from the
kept features; the support row is exactly the mask of remaining-or-kept
features; and the ranking row has length `n`, entries at least 1, and
entry 1 exactly on supported features. -/
structure RfeInv (n : Nat) (keep remaining : List Nat) (support : List Bool)
    (ranking : List Nat) : Prop where
  nd : remaining.Nodup
  lt : ∀ i ∈ remaining, i < n
  disj : ∀ i ∈ keep, i ∉ remaining
  sup : support = rowOf n remaining keep
  rlen : ranking.length = n
  rpos : ∀ i, i < n → 1 ≤ ranking.getD i 0
  riff : ∀ i, i < n → (ranking.getD i 0 = 1 ↔ support.getD i false = true)

theorem round_update (n : Nat) (keep remaining : List Nat) (support : List Bool)
    (ranking : List Nat) (ranked : List Nat) (s : Nat)
    (hinv : RfeInv n keep remaining support ranking)
    (hperm : List.Perm ranked remaining) :
    RfeInv n keep (List.insertionSort (fun a b => a ≤ b) (ranked.drop s))
        (setFalse support (ranked.take s))
        (bumpRanks ranking (setFalse support (ranked.take s))) ∧
      (∀ i, (setFalse support (ranked.take s)).getD i false = true →
        support.getD i false = true) ∧
      (List.insertionSort (fun a b => a ≤ b) (ranked.drop s)).length =
        remaining.length - s ∧
      (∀ i ∈ keep, i ∉ ranked) := by
  obtain ⟨nd, lt, disj, sup, rlen, rpos, riff⟩ := hinv
  have ndr : ranked.Nodup := hperm.nodup_iff.mpr nd
  have hmemr : ∀ i, i ∈ ranked ↔ i ∈ remaining := fun i => hperm.mem_iff
  have hkr : ∀ i ∈ keep, i ∉ ranked := fun i hi hmem => disj i hi ((hmemr i).mp hmem)
  have hsplit := List.take_append_drop s ranked
  have ndapp : (ranked.take s ++ ranked.drop s).Nodup := by rw [hsplit]; exact ndr
  rw [List.nodup_append] at ndapp
  obtain ⟨ndTake, ndDrop, disjTD⟩ := ndapp
  have hmem_td : ∀ i, i ∈ ranked ↔ (i ∈ ranked.take s ∨ i ∈ ranked.drop s) := by
    intro i
    rw [← List.mem_append, hsplit]
  have hperm2 : List.Perm (List.insertionSort (fun a b => a ≤ b) (ranked.drop s))
      (ranked.drop s) := List.perm_insertionSort _ _
  have hmem2 : ∀ i, i ∈ List.insertionSort (fun a b => a ≤ b) (ranked.drop s) ↔
      i ∈ ranked.drop s := fun i => hperm2.mem_iff
  have nd2 : (List.insertionSort (fun a b => a ≤ b) (ranked.drop s)).Nodup :=
    hperm2.nodup_iff.mpr ndDrop
  have lt2 : ∀ i ∈ List.insertionSort (fun a b => a ≤ b) (ranked.drop s), i < n :=
    fun i hi => lt i ((hmemr i).mp (List.drop_subset _ _ ((hmem2 i).mp hi)))
  have disj2 : ∀ i ∈ keep, i ∉ List.insertionSort (fun a b => a ≤ b) (ranked.drop s) :=
    fun i hi hmem => hkr i hi (List.drop_subset _ _ ((hmem2 i).mp hmem))
  have hchar : ∀ i, i ∈ List.insertionSort (fun a b => a ≤ b) (ranked.drop s) ↔
      (i ∈ remaining ∧ i ∉ ranked.take s) := by
    intro i
    rw [hmem2]
    constructor
    · intro hd
      exact ⟨(hmemr i).mp ((hmem_td i).mpr (Or.inr hd)), fun ht => disjTD ht hd⟩
    · rintro ⟨hr, hnt⟩
      rcases (hmem_td i).mp ((hmemr i).mpr hr) with h | h
      · exact absurd h hnt
      · exact h
  have hsupLen : support.length = n := by rw [sup]; exact rowOf_length n remaining keep
  have hsup2 : setFalse support (ranked.take s) =
      rowOf n (List.insertionSort (fun a b => a ≤ b) (ranked.drop s)) keep := by
    apply List.ext_getElem
    · rw [setFalse_length, hsupLen, rowOf_length]
    · intro i h1 h2
      have hin : i < n := by
        have h3 := h1
        rw [setFalse_length, hsupLen] at h3
        exact h3
      rw [← List.getD_eq_getElem _ false h1, ← List.getD_eq_getElem _ false h2]
      have hik : i < support.length := by
        rw [hsupLen]
        exact hin
      rw [setFalse_getD _ _ _ hik, rowOf_getD _ _ _ _ hin]
      have hsg : support[i] = support.getD i false := by
        rw [List.getD_eq_getElem _ false hik]
      rw [hsg, sup, rowOf_getD _ _ _ _ hin]
      have h5 : ∀ j ∈ keep, j ∉ ranked.take s :=
        fun j hj ht => hkr j hj (List.take_subset _ _ ht)
      have hb : ∀ (x y : Bool), (x = true ↔ y = true) → x = y := by
        intro x y hxy
        cases x <;> cases y <;> simp_all
      have hnotmem : ∀ (l : List Nat), (l.contains i = false) ↔ i ∉ l := by
        intro l
        cases hq : l.contains i <;> simp_all [List.elem_iff]
      apply hb
      simp only [Bool.and_eq_true, Bool.or_eq_true, Bool.not_eq_true', List.elem_iff,
        hnotmem]
      constructor
      · rintro ⟨hor, hnt⟩
        rcases hor with hrem | hkp
        · exact Or.inl ((hchar i).mpr ⟨hrem, hnt⟩)
        · exact Or.inr hkp
      · rintro (hs2 | hkp)
        · obtain ⟨hrem, hnt⟩ := (hchar i).mp hs2
          exact ⟨Or.inl hrem, hnt⟩
        · exact ⟨Or.inr hkp, h5 i hkp⟩
  have hmono : ∀ i, (setFalse support (ranked.take s)).getD i false = true →
      support.getD i false = true := by
    intro i hi
    by_cases hlen : i < support.length
    · rw [setFalse_getD _ _ _ hlen] at hi
      have hgi : support[i] = true := by
        cases hq : support[i]
        · rw [hq] at hi
          simp at hi
        · rfl
      rw [List.getD_eq_getElem _ _ hlen]
      exact hgi
    · exfalso
      rw [List.getD_eq_default] at hi
      · exact Bool.noConfusion hi
      · rw [setFalse_length]
        exact Nat.le_of_not_lt hlen
  have hs2len : (setFalse support (ranked.take s)).length = n := by
    rw [setFalse_length, hsupLen]
  have hrlen2 : (bumpRanks ranking (setFalse support (ranked.take s))).length = n := by
    rw [bumpRanks, List.length_zipWith, rlen, hs2len]
    simp
  have hbget : ∀ i, i < n →
      (bumpRanks ranking (setFalse support (ranked.take s))).getD i 0 =
      if (setFalse support (ranked.take s)).getD i false = true then ranking.getD i 0
      else ranking.getD i 0 + 1 := by
    intro i hin
    have h1 : i < (bumpRanks ranking (setFalse support (ranked.take s))).length := by
      rw [hrlen2]
      exact hin
    rw [List.getD_eq_getElem _ _ h1]
    simp only [bumpRanks] at h1 ⊢
    rw [List.getElem_zipWith]
    rw [List.getD_eq_getElem _ false (by rw [hs2len]; exact hin),
      List.getD_eq_getElem _ 0 (by rw [rlen]; exact hin)]
  refine ⟨⟨nd2, lt2, disj2, hsup2, hrlen2, ?_, ?_⟩, hmono, ?_, hkr⟩
  · intro i hin
    rw [hbget i hin]
    have := rpos i hin
    split <;> omega
  · intro i hin
    rw [hbget i hin]
    cases hq : (setFalse support (ranked.take s)).getD i false
    · rw [if_neg (by simp)]
      have := rpos i hin
      constructor
      · intro h
        omega
      · intro h
        simp at h
    · have hold : ranking.getD i 0 = 1 := (riff i hin).mpr (hmono i hq)
      rw [if_pos rfl, hold]
      simp
  · rw [hperm2.length_eq, List.length_drop, hperm.length_eq]

/-- Per-round facts recorded about a `_rfe_fit` run: for each step, the
round's ranked list is a permutation of the incoming remaining features,
the eliminated block is its prefix of length `step`, the new remaining
set is the rest, kept features never enter the ranked list, the invariant
holds for the new rows, and the new support is pointwise below the old. -/
def Hist (n : Nat) (keep : List Nat) :
    List Nat → List Nat → List Bool → List RfeRound → Prop
  | [], _, _, rounds => rounds = []
  | s :: st, remaining, support, rounds =>
    ∃ rd rest remaining2,
      rounds = rd :: rest ∧
      List.Perm rd.ranked remaining ∧
      rd.eliminated = rd.ranked.take s ∧
      remaining2 = List.insertionSort (fun a b => a ≤ b) (rd.ranked.drop s) ∧
      remaining2.length = remaining.length - s ∧
      (∀ i ∈ keep, i ∉ rd.ranked) ∧
      RfeInv n keep remaining2 rd.support rd.ranking ∧
      (∀ i, rd.support.getD i false = true → support.getD i false = true) ∧
      Hist n keep st remaining2 rd.support rest

theorem rfeSteps_hist (e : RfeEstimator) (n : Nat) (keep : List Nat)
    (hest : ∀ fs, e.hasCoef fs = true ∨ e.hasFeatImp fs = true) :
    ∀ (steps remaining : List Nat) (support : List Bool) (ranking : List Nat),
    RfeInv n keep remaining support ranking →
    ∃ rounds, rfeSteps e keep steps remaining support ranking = .ok rounds ∧
      Hist n keep steps remaining support rounds := by
  intro steps
  induction steps with
  | nil =>
    intro remaining support ranking _
    exact ⟨[], rfl, rfl⟩
  | cons s st ih =>
    intro remaining support ranking hinv
    have himp : ∃ imp, getImportances e (sortedUnion remaining keep) = .ok imp := by
      unfold getImportances
      by_cases hc : e.hasCoef (sortedUnion remaining keep)
      · exact ⟨_, by rw [if_pos hc]⟩
      · rcases hest (sortedUnion remaining keep) with h | h
        · exact absurd h hc
        · exact ⟨_, by rw [if_neg hc, if_pos h]⟩
    obtain ⟨imp, himp⟩ := himp
    have hperm : List.Perm (rankRemaining imp remaining) remaining :=
      List.perm_insertionSort _ _
    obtain ⟨hinv2, hmono, hlen2, hkr⟩ :=
      round_update n keep remaining support ranking (rankRemaining imp remaining) s hinv hperm
    obtain ⟨rest, hrest, hh⟩ := ih
      (List.insertionSort (fun a b => a ≤ b) ((rankRemaining imp remaining).drop s))
      (setFalse support ((rankRemaining imp remaining).take s))
      (bumpRanks ranking (setFalse support ((rankRemaining imp remaining).take s)))
      hinv2
    refine ⟨⟨rankRemaining imp remaining, (rankRemaining imp remaining).take s,
      setFalse support ((rankRemaining imp remaining).take s),
      bumpRanks ranking (setFalse support ((rankRemaining imp remaining).take s))⟩ :: rest,
      ?_, ?_⟩
    · simp only [rfeSteps, himp, hrest]
    · exact ⟨_, rest, _, rfl, hperm, rfl, rfl, hlen2, hkr, hinv2, hmono, hh⟩

theorem initSupport_getD (n i : Nat) (h : i < n) :
    (initSupport n).getD i false = true := by
  rw [initSupport, List.getD_eq_getElem _ _ (by simpa using h)]
  simp

theorem initRanking_getD (n i : Nat) (h : i < n) : (initRanking n).getD i 0 = 1 := by
  rw [initRanking, List.getD_eq_getElem _ _ (by simpa using h)]
  simp

theorem rfeInit_inv (n : Nat) (keep : List Nat) :
    RfeInv n keep (initRemaining n keep) (initSupport n) (initRanking n) := by
  refine ⟨(List.nodup_range n).filter _, ?_, ?_, ?_, by simp [initRanking], ?_, ?_⟩
  · intro i hi
    exact List.mem_range.mp (List.mem_of_mem_filter hi)
  · intro i hi hmem
    have := List.of_mem_filter hmem
    simp [List.elem_iff] at this
    exact this hi
  · apply List.ext_getElem
    · simp [initSupport, rowOf]
    · intro i h1 h2
      have hin : i < n := by simpa [initSupport] using h1
      rw [← List.getD_eq_getElem _ false h1, ← List.getD_eq_getElem _ false h2]
      rw [initSupport_getD n i hin, rowOf_getD _ _ _ _ hin]
      by_cases hk : i ∈ keep
      · simp [List.elem_iff, hk]
      · have : i ∈ initRemaining n keep := by
          simp [initRemaining, List.mem_filter, List.elem_iff, List.mem_range, hin, hk]
        simp [List.elem_iff, this]
  · intro i hin
    rw [initRanking_getD n i hin]
  · intro i hin
    rw [initRanking_getD n i hin, initSupport_getD n i hin]
    simp

theorem rfeSteps_hist_of_ok (e : RfeEstimator) (n : Nat) (keep : List Nat) :
    ∀ (steps remaining : List Nat) (support : List Bool) (ranking : List Nat)
      (rounds : List RfeRound),
    rfeSteps e keep steps remaining support ranking = .ok rounds →
    RfeInv n keep remaining support ranking →
    Hist n keep steps remaining support rounds := by
  intro steps
  induction steps with
  | nil =>
    intro remaining support ranking rounds h _
    simp only [rfeSteps] at h
    cases h
    rfl
  | cons s st ih =>
    intro remaining support ranking rounds h hinv
    simp only [rfeSteps] at h
    split at h
    · cases h
    next imp himp =>
      split at h
      · cases h
      next rest hrest =>
        cases h
        have hperm : List.Perm (rankRemaining imp remaining) remaining :=
          List.perm_insertionSort _ _
        obtain ⟨hinv2, hmono, hlen2, hkr⟩ :=
          round_update n keep remaining support ranking (rankRemaining imp remaining)
            s hinv hperm
        have hh := ih _ _ _ _ hrest hinv2
        exact ⟨_, rest, _, rfl, hperm, rfl, rfl, hlen2, hkr, hinv2, hmono, hh⟩

theorem hist_chain (n : Nat) (keep : List Nat) :
    ∀ (st remaining : List Nat) (support : List Bool) (ranking : List Nat)
      (rounds : List RfeRound),
    Hist n keep st remaining support rounds →
    RfeInv n keep remaining support ranking →
    List.Chain' (fun a b => ∀ i, b.1.getD i false = true → a.1.getD i false = true)
      ((support, ranking) :: rounds.map (fun r => (r.support, r.ranking))) ∧
    (∀ row ∈ rounds.map (fun r => (r.support, r.ranking)), ∀ i, i < n →
      (row.2.getD i 0 = 1 ↔ row.1.getD i false = true)) := by
  intro st
  induction st with
  | nil =>
    intro remaining support ranking rounds hh _
    cases hh
    simp
  | cons s st ih =>
    intro remaining support ranking rounds hh hinv
    obtain ⟨rd, rest, remaining2, rfl, hperm, helim, hrem2, hlen2, hkr, hinv2, hmono, hh2⟩ := hh
    obtain ⟨hchain, hiff⟩ := ih remaining2 rd.support rd.ranking rest hh2 hinv2
    constructor
    · simp only [List.map_cons]
      exact List.Chain'.cons (fun i => hmono i) hchain
    · intro row hrow i hin
      simp only [List.map_cons, List.mem_cons] at hrow
      rcases hrow with rfl | hrow
      · exact hinv2.riff i hin
      · exact hiff row hrow i hin

theorem hist_keep (n : Nat) (keep : List Nat) :
    ∀ (st remaining : List Nat) (support : List Bool) (rounds : List RfeRound),
    Hist n keep st remaining support rounds →
    ∀ k ∈ keep, k < n →
      ∀ rd ∈ rounds, rd.support.getD k false = true ∧ k ∉ rd.ranked ∧ k ∉ rd.eliminated := by
  intro st
  induction st with
  | nil =>
    intro remaining support rounds hh k _ _ rd hrd
    cases hh
    simp at hrd
  | cons s st ih =>
    intro remaining support rounds hh k hk hkn rd hrd
    obtain ⟨rd2, rest, remaining2, rfl, hperm, helim, hrem2, hlen2, hkr, hinv2, hmono, hh2⟩ := hh
    rcases List.mem_cons.mp hrd with rfl | hrd2
    · refine ⟨?_, hkr k hk, fun he => hkr k hk (List.take_subset _ _ (helim ▸ he))⟩
      rw [hinv2.sup, rowOf_getD _ _ _ _ hkn]
      simp [List.elem_iff, hk]
    · exact ih remaining2 rd2.support rest hh2 k hk hkn rd hrd2

/-- C4: in every history produced by the elimination engine, the retained
set at each round is a subset of the retained set at the previous round
(support rows are pointwise monotonically non-increasing along the
history, so a feature once dropped never returns), and at every round
`ranking[i] = 1` holds exactly when `support[i]` is true. -/
theorem claim_C4 (e : RfeEstimator) (n : Nat) (steps keep : List Nat)
    (rounds : List RfeRound) (h : rfeFit e n steps keep = .ok rounds) :
    List.Chain' (fun a b => ∀ i, b.1.getD i false = true → a.1.getD i false = true)
      (historyRows n rounds) ∧
    ∀ row ∈ historyRows n rounds, ∀ i, i < n →
      (row.2.getD i 0 = 1 ↔ row.1.getD i false = true) := by
  have hh := rfeSteps_hist_of_ok e n keep steps (initRemaining n keep)
    (initSupport n) (initRanking n) rounds h (rfeInit_inv n keep)
  obtain ⟨hchain, hiff⟩ := hist_chain n keep steps (initRemaining n keep)
    (initSupport n) (initRanking n) rounds hh (rfeInit_inv n keep)
  refine ⟨hchain, ?_⟩
  intro row hrow i hin
  rcases List.mem_cons.mp hrow with rfl | hrow2
  · rw [initRanking_getD n i hin, initSupport_getD n i hin]
    simp
  · exact hiff row hrow2 i hin

/-- C8: every kept feature (a feature whose penalty factor is zero) is
true in every support row of the history, and kept features never occur
in a round's ranked list (the entries whose importance scores are sorted)
nor among the features eliminated in that round. -/
theorem claim_C8 (e : RfeEstimator) (n : Nat) (steps : List Nat) (pf : List ℚ)
    (rounds : List RfeRound) (hlen : pf.length = n)
    (h : rfeFit e n steps (keepFeaturesOf (some pf)) = .ok rounds) :
    ∀ k ∈ keepFeaturesOf (some pf),
      (∀ row ∈ historyRows n rounds, row.1.getD k false = true) ∧
      ∀ rd ∈ rounds, k ∉ rd.ranked ∧ k ∉ rd.eliminated := by
  intro k hk
  have hkn : k < n := by
    have := List.mem_range.mp (List.mem_of_mem_filter hk)
    omega
  have hh := rfeSteps_hist_of_ok e n (keepFeaturesOf (some pf)) steps _ _ _ rounds h
    (rfeInit_inv n (keepFeaturesOf (some pf)))
  have hkeep := hist_keep n (keepFeaturesOf (some pf)) steps _ _ rounds hh k hk hkn
  constructor
  · intro row hrow
    rcases List.mem_cons.mp hrow with rfl | hrow2
    · exact initSupport_getD n k hkn
    · obtain ⟨rd, hrd, rfl⟩ := List.mem_map.mp hrow2
      exact (hkeep rd hrd).1
  · intro rd hrd
    exact (hkeep rd hrd).2

/-- A concrete estimator exposing `coef_` with an empty coefficient matrix
(zero outputs), used to evaluate the model on concrete inputs. -/
def eZ : RfeEstimator := ⟨fun _ => true, fun _ => false, fun _ _ => [], fun _ _ => 0⟩

/-- Witness for `claim_C4` on a concrete two-step history over 4 features. -/
theorem claim_C4_witness :
    List.Chain' (fun a b => ∀ i, b.1.getD i false = true → a.1.getD i false = true)
      (historyRows 4 [⟨[0, 1, 2, 3], [0], [false, true, true, true], [2, 1, 1, 1]⟩,
        ⟨[1, 2, 3], [1], [false, false, true, true], [3, 2, 1, 1]⟩]) ∧
    ∀ row ∈ historyRows 4 [⟨[0, 1, 2, 3], [0], [false, true, true, true], [2, 1, 1, 1]⟩,
        ⟨[1, 2, 3], [1], [false, false, true, true], [3, 2, 1, 1]⟩], ∀ i, i < 4 →
      (row.2.getD i 0 = 1 ↔ row.1.getD i false = true) :=
  claim_C4 eZ 4 [1, 1] []
    [⟨[0, 1, 2, 3], [0], [false, true, true, true], [2, 1, 1, 1]⟩,
     ⟨[1, 2, 3], [1], [false, false, true, true], [3, 2, 1, 1]⟩] (by decide)

/-- Witness for `claim_C8` on a concrete history with one kept feature
(penalty factor 0 at index 0), instantiated at that feature. -/
theorem claim_C8_witness :
    (0 ∈ keepFeaturesOf (some [0, 1, 1, 1])) ∧
    ((∀ row ∈ historyRows 4 [⟨[1, 2, 3], [1], [true, false, true, true], [1, 2, 1, 1]⟩,
          ⟨[2, 3], [2], [true, false, false, true], [1, 3, 2, 1]⟩],
        row.1.getD 0 false = true) ∧
      ∀ rd ∈ [⟨[1, 2, 3], [1], [true, false, true, true], [1, 2, 1, 1]⟩,
          ⟨[2, 3], [2], [true, false, false, true], [1, 3, 2, 1]⟩],
        0 ∉ RfeRound.ranked rd ∧ 0 ∉ RfeRound.eliminated rd) :=
  ⟨by decide, claim_C8 eZ 4 [1, 1] [0, 1, 1, 1]
    [⟨[1, 2, 3], [1], [true, false, true, true], [1, 2, 1, 1]⟩,
     ⟨[2, 3], [2], [true, false, false, true], [1, 3, 2, 1]⟩] (by decide) (by decide)
    0 (by decide)⟩

theorem countP_not_add (p : Nat → Bool) (l : List Nat) :
    l.countP (fun i => !(p i)) + l.countP p = l.length := by
  induction l with
  | nil => simp
  | cons a l ih =>
    simp only [List.countP_cons, List.length_cons]
    cases hp : p a <;> simp [hp] <;> omega

theorem initRemaining_length (n : Nat) (keep : List Nat) (hknd : keep.Nodup)
    (hklt : ∀ i ∈ keep, i < n) : (initRemaining n keep).length = n - keep.length := by
  unfold initRemaining
  rw [← List.countP_eq_length_filter]
  have h1 := countP_not_add (fun i => keep.contains i) (List.range n)
  rw [countP_contains_nodup _ _ (List.nodup_range n) hknd
    (fun i hi => List.mem_range.mpr (hklt i hi))] at h1
  simp only [List.length_range] at h1
  omega

theorem keep_length_le (n : Nat) (keep : List Nat) (hknd : keep.Nodup)
    (hklt : ∀ i ∈ keep, i < n) : keep.length ≤ n := by
  have h1 := countP_contains_nodup (List.range n) keep (List.nodup_range n) hknd
    (fun i hi => List.mem_range.mpr (hklt i hi))
  have h2 := List.countP_le_length (fun i => keep.contains i) (l := List.range n)
  simp only [List.length_range] at h2
  omega

theorem hist_rows (n : Nat) (keep : List Nat) :
    ∀ (st cnts remaining : List Nat) (support : List Bool)
      (rounds : List RfeRound) (o : Option Nat),
    Hist n keep st remaining support rounds →
    SchedOk o remaining.length st cnts →
    rounds.length = cnts.length ∧
    ∀ k, k < rounds.length →
      ∃ rem_k, rem_k.length = cnts.getD k 0 ∧
        RfeInv n keep rem_k (rounds.getD k ⟨[], [], [], []⟩).support
          (rounds.getD k ⟨[], [], [], []⟩).ranking := by
  intro st
  induction st with
  | nil =>
    intro cnts remaining support rounds o hh hs
    cases hh
    obtain ⟨rfl, _⟩ := hs
    refine ⟨rfl, ?_⟩
    intro k hk
    simp at hk
  | cons s st ih =>
    intro cnts remaining support rounds o hh hs
    obtain ⟨rd, rest, rem2, rfl, hperm, helim, hrem2eq, hlen2, hkr, hinv2, hmono, hh2⟩ := hh
    obtain ⟨hs1, hs2, _, cnts2, rfl, hok2⟩ := hs
    obtain ⟨hlen, hrows⟩ := ih cnts2 rem2 rd.support rest o hh2
      (by rw [hlen2]; exact hok2)
    constructor
    · simp [hlen]
    · intro k hk
      match k with
      | 0 => exact ⟨rem2, by simpa using hlen2, hinv2⟩
      | k + 1 =>
        have := hrows k (by simpa using hk)
        simpa using this

theorem getImportancesRollback_ok (e : RfeEstimator) (fs : List Nat)
    (hest : e.hasCoef fs = true ∨ e.hasFeatImp fs = true) :
    ∃ imp, getImportancesRollback e fs = .ok imp := by
  unfold getImportancesRollback
  by_cases hc : e.hasCoef fs
  · exact ⟨_, by rw [if_pos hc]⟩
  · rcases hest with h | h
    · exact absurd h hc
    · exact ⟨_, by rw [if_neg hc, if_pos h]⟩

theorem rollbackElim_count (e : RfeEstimator) (n : Nat) (keep rem : List Nat)
    (support : List Bool) (ranking : List Nat) (t : Nat)
    (hknd : keep.Nodup) (hklt : ∀ i ∈ keep, i < n)
    (hest : ∀ fs, e.hasCoef fs = true ∨ e.hasFeatImp fs = true)
    (hinv : RfeInv n keep rem support ranking)
    (ht : t ≤ rem.length) :
    ∃ s2 r2 fs2, rollbackElim e keep t support ranking = .ok (s2, r2, fs2) ∧
      countTrue s2 = t + keep.length := by
  have hslen : support.length = n := by
    rw [hinv.sup]
    exact rowOf_length n rem keep
  set features := (List.range support.length).filter (fun i => support.getD i false)
    with hfeat
  set remaining := features.filter (fun i => !(keep.contains i)) with hremm
  obtain ⟨imp, himp⟩ := getImportancesRollback_ok e features (hest features)
  have hndrem : remaining.Nodup := ((List.nodup_range _).filter _).filter _
  have hmemrem : ∀ i, i ∈ remaining ↔ i ∈ rem := by
    intro i
    rw [hremm, List.mem_filter, hfeat, List.mem_filter]
    constructor
    · rintro ⟨⟨hr, hsup⟩, hnk⟩
      have hin : i < n := by
        rw [hslen] at hr
        exact List.mem_range.mp hr
      rw [hinv.sup, rowOf_getD _ _ _ _ hin] at hsup
      simp only [Bool.or_eq_true, List.elem_iff] at hsup
      rcases hsup with h | h
      · exact h
      · exfalso
        revert hnk
        simp [List.elem_iff, h]
    · intro hr
      have hin : i < n := hinv.lt i hr
      have hnk : i ∉ keep := fun hk => hinv.disj i hk hr
      refine ⟨⟨?_, ?_⟩, ?_⟩
      · rw [hslen]
        exact List.mem_range.mpr hin
      · rw [hinv.sup, rowOf_getD _ _ _ _ hin]
        simp [List.elem_iff, hr]
      · simp [List.elem_iff, hnk]
  have hpermrem : List.Perm remaining rem :=
    (List.perm_ext_iff_of_nodup hndrem hinv.nd).mpr hmemrem
  have hrlen : remaining.length = rem.length := hpermrem.length_eq
  have hperm2 : List.Perm (rankRemaining imp remaining) rem :=
    (List.perm_insertionSort _ _).trans hpermrem
  obtain ⟨hinv2, hmono, hlen2, hkr⟩ := round_update n keep rem support ranking
    (rankRemaining imp remaining) (remaining.length - t) hinv hperm2
  refine ⟨setFalse support ((rankRemaining imp remaining).take (remaining.length - t)),
    bumpRanks ranking (setFalse support ((rankRemaining imp remaining).take (remaining.length - t))),
    sortedUnion (List.insertionSort (fun a b => a ≤ b)
      ((rankRemaining imp remaining).drop (remaining.length - t))) keep, ?_, ?_⟩
  · simp only [rollbackElim]
    rw [← hfeat, ← hremm, himp]
  · rw [hinv2.sup]
    rw [countTrue_rowOf n _ keep hinv2.nd hinv2.lt hknd hklt hinv2.disj]
    rw [hlen2, hrlen]
    omega

theorem findIdx?_getD_facts {α : Type} (p : α → Bool) (l : List α) (d : α) (idx : Nat)
    (h : l.findIdx? p = some idx) :
    idx < l.length ∧ p (l.getD idx d) = true ∧ ∀ j, j < idx → p (l.getD j d) = false := by
  obtain ⟨h1, h2⟩ := List.findIdx?_eq_some_iff_findIdx_eq.mp h
  subst h2
  refine ⟨h1, ?_, ?_⟩
  · rw [List.getD_eq_getElem _ d h1]
    exact List.findIdx_getElem (w := h1)
  · intro j hj
    rw [List.getD_eq_getElem _ d (lt_trans hj h1)]
    exact List.not_of_lt_findIdx hj

theorem extendedRFEFit_retains (e : RfeEstimator) (cfg : RfeConfig) (nTotal : Nat)
    (penalty : Option (List ℚ)) (nToSelectOpt : Option Nat) (s0 : Nat)
    (tp : Option (Nat × Nat))
    (hpf : ∀ pf, penalty = some pf → pf.length = nTotal)
    (hest : ∀ fs, e.hasCoef fs = true ∨ e.hasFeatImp fs = true)
    (hs0 : resolveStep cfg (nTotal - (keepFeaturesOf penalty).length) = .ok s0)
    (htp : resolveTuneParams cfg (nTotal - (keepFeaturesOf penalty).length)
      (nToSelectOpt.getD ((nTotal - (keepFeaturesOf penalty).length) / 2)) = .ok tp)
    (ht1 : 1 ≤ nToSelectOpt.getD ((nTotal - (keepFeaturesOf penalty).length) / 2))
    (ht2 : nToSelectOpt.getD ((nTotal - (keepFeaturesOf penalty).length) / 2) ≤
      nTotal - (keepFeaturesOf penalty).length) :
    ∃ res : FitResult, extendedRFEFit e cfg nTotal penalty nToSelectOpt = .ok res ∧
      countTrue res.support = nToSelectOpt.getD
        ((nTotal - (keepFeaturesOf penalty).length) / 2) + (keepFeaturesOf penalty).length ∧
      res.nFeatures = countTrue res.support := by
  obtain ⟨keep, hkeq⟩ : ∃ k, keepFeaturesOf penalty = k := ⟨_, rfl⟩
  have hknd : keep.Nodup := by
    rw [← hkeq]
    cases penalty with
    | none => simp [keepFeaturesOf]
    | some pf => exact (List.nodup_range _).filter _
  have hklt : ∀ i ∈ keep, i < nTotal := by
    rw [← hkeq]
    cases penalty with
    | none => simp [keepFeaturesOf]
    | some pf =>
      intro i hi
      have h1 := List.mem_range.mp (List.mem_of_mem_filter hi)
      have h2 := hpf pf rfl
      omega
  rw [hkeq] at hs0 htp ht1 ht2 ⊢
  obtain ⟨t, hteq⟩ : ∃ u, nToSelectOpt.getD ((nTotal - keep.length) / 2) = u := ⟨_, rfl⟩
  rw [hteq] at htp ht1 ht2 ⊢
  have hn1 : 1 ≤ nTotal - keep.length := le_trans ht1 ht2
  have hcheck : checkParams nToSelectOpt = .ok () := by
    cases hns : nToSelectOpt with
    | none => rfl
    | some t2 =>
      rw [hns] at hteq
      simp only [Option.getD_some] at hteq
      subst hteq
      simp only [checkParams]
      rw [if_neg (by omega)]
  obtain ⟨steps, cnts, hgs, hok⟩ := getSteps_spec hs0 htp hn1
  obtain ⟨rounds, hrfe, hh⟩ := rfeSteps_hist e nTotal keep hest steps
    (initRemaining nTotal keep) (initSupport nTotal) (initRanking nTotal)
    (rfeInit_inv nTotal keep)
  have hrfe2 : rfeFit e nTotal steps keep = .ok rounds := by
    rw [rfeFit]
    exact hrfe
  have hirlen : (initRemaining nTotal keep).length = nTotal - keep.length :=
    initRemaining_length nTotal keep hknd hklt
  obtain ⟨hrl, hrows⟩ := hist_rows nTotal keep steps cnts _ _ rounds _ hh
    (by rw [hirlen]; exact hok)
  have hklen_le : keep.length ≤ nTotal := keep_length_le nTotal keep hknd hklt
  have hrowslen : (historyRows nTotal rounds).length = cnts.length + 1 := by
    simp [historyRows, hrl]
  have hrow_succ : ∀ k, k < rounds.length →
      (historyRows nTotal rounds).getD (k + 1) ([], []) =
        ((rounds.getD k ⟨[], [], [], []⟩).support,
         (rounds.getD k ⟨[], [], [], []⟩).ranking) := by
    intro k hk
    have h1 : k + 1 < (historyRows nTotal rounds).length := by
      simp [historyRows]
      omega
    rw [List.getD_eq_getElem _ _ h1, List.getD_eq_getElem _ _ hk]
    simp [historyRows]
  have hcount : ∀ k, k < (historyRows nTotal rounds).length →
      countTrue ((historyRows nTotal rounds).getD k ([], [])).1 =
        ((nTotal - keep.length) :: cnts).getD k 0 + keep.length := by
    intro k hk
    match k with
    | 0 =>
      have h0 : (historyRows nTotal rounds).getD 0 ([], []) =
          (initSupport nTotal, initRanking nTotal) := rfl
      rw [h0]
      simp only [List.getD_cons_zero]
      simp [countTrue, initSupport, List.count_replicate]
      omega
    | k + 1 =>
      have hk2 : k < rounds.length := by
        rw [hrowslen] at hk
        omega
      obtain ⟨rem_k, hlenk, hinvk⟩ := hrows k hk2
      rw [hrow_succ k hk2]
      simp only [List.getD_cons_succ]
      rw [hinvk.sup, countTrue_rowOf nTotal rem_k keep hinvk.nd hinvk.lt hknd hklt
        hinvk.disj, hlenk]
  have hlast1 : ((nTotal - keep.length) :: cnts).getD (cnts.length) 0 = 1 := by
    have h1 := schedOk_last hok
    rw [List.getLast?_eq_getElem?] at h1
    have h2 : ((nTotal - keep.length) :: cnts).length - 1 = cnts.length := by simp
    rw [h2] at h1
    have h3 : cnts.length < ((nTotal - keep.length) :: cnts).length := by simp
    rw [List.getElem?_eq_getElem h3] at h1
    rw [List.getD_eq_getElem _ _ h3]
    simpa using h1
  have hex : ∃ x ∈ historyRows nTotal rounds,
      (fun row => decide ((countTrue row.1 : Int) - keep.length ≤ t)) x = true := by
    have hlt : cnts.length < (historyRows nTotal rounds).length := by
      rw [hrowslen]
      omega
    refine ⟨(historyRows nTotal rounds).getD (cnts.length) ([], []), ?_, ?_⟩
    · rw [List.getD_eq_getElem _ _ hlt]
      exact List.getElem_mem _
    · show decide ((countTrue ((historyRows nTotal rounds).getD (cnts.length)
        ([], [])).1 : Int) - keep.length ≤ t) = true
      rw [hcount _ hlt, hlast1]
      simp only [decide_eq_true_eq]
      push_cast
      omega
  obtain ⟨idx, hfi⟩ : ∃ i, (historyRows nTotal rounds).findIdx?
      (fun row => decide ((countTrue row.1 : Int) - keep.length ≤ t)) = some i := by
    have h1 := @List.findIdx?_isSome _ (historyRows nTotal rounds)
      (fun row => decide ((countTrue row.1 : Int) - keep.length ≤ t))
    rw [List.any_eq_true.mpr hex] at h1
    exact Option.isSome_iff_exists.mp h1
  obtain ⟨hidxlt, hpt, hpfj⟩ := findIdx?_getD_facts _ _ ([], []) idx hfi
  have hp_idx : ((nTotal - keep.length) :: cnts).getD idx 0 ≤ t := by
    simp only [decide_eq_true_eq] at hpt
    rw [hcount idx hidxlt] at hpt
    push_cast at hpt
    omega
  have hp_prev : ∀ j, j < idx → t < ((nTotal - keep.length) :: cnts).getD j 0 := by
    intro j hj
    have h1 := hpfj j hj
    simp only [decide_eq_false_iff_not] at h1
    rw [hcount j (lt_trans hj hidxlt)] at h1
    push_cast at h1
    omega
  by_cases hexact : ((nTotal - keep.length) :: cnts).getD idx 0 = t
  · refine ⟨⟨((historyRows nTotal rounds).getD idx ([], [])).1,
      ((historyRows nTotal rounds).getD idx ([], [])).2,
      countTrue ((historyRows nTotal rounds).getD idx ([], [])).1⟩, ?_, ?_, rfl⟩
    · simp only [extendedRFEFit]
      simp only [hkeq, hteq, hcheck, hgs, hrfe2, hfi]
      rw [if_pos (by
        rw [hcount idx hidxlt, hexact]
        push_cast
        omega)]
    · show countTrue ((historyRows nTotal rounds).getD idx ([], [])).1 = t + keep.length
      rw [hcount idx hidxlt, hexact]
  · have hlt_t : ((nTotal - keep.length) :: cnts).getD idx 0 < t := by omega
    have hidx0 : idx ≠ 0 := by
      intro h0
      rw [h0] at hlt_t
      simp only [List.getD_cons_zero] at hlt_t
      omega
    have hprevinv : ∃ rem_p, rem_p.length =
        ((nTotal - keep.length) :: cnts).getD (idx - 1) 0 ∧
        RfeInv nTotal keep rem_p
          ((historyRows nTotal rounds).getD (idx - 1) ([], [])).1
          ((historyRows nTotal rounds).getD (idx - 1) ([], [])).2 := by
      match him : idx - 1 with
      | 0 =>
        refine ⟨initRemaining nTotal keep, by simpa using hirlen, ?_⟩
        have h0 : (historyRows nTotal rounds).getD 0 ([], []) =
            (initSupport nTotal, initRanking nTotal) := rfl
        rw [h0]
        exact rfeInit_inv nTotal keep
      | k + 1 =>
        have hk2 : k < rounds.length := by
          rw [hrowslen] at hidxlt
          omega
        obtain ⟨rem_k, hlenk, hinvk⟩ := hrows k hk2
        refine ⟨rem_k, by simpa using hlenk, ?_⟩
        rw [hrow_succ k hk2]
        exact hinvk
    obtain ⟨rem_p, hremplen, hinvp⟩ := hprevinv
    have hprev_gt : t < rem_p.length := by
      rw [hremplen]
      exact hp_prev (idx - 1) (by omega)
    obtain ⟨s2, r2, fs2, heq2, hcnt2⟩ := rollbackElim_count e nTotal keep rem_p
      ((historyRows nTotal rounds).getD (idx - 1) ([], [])).1
      ((historyRows nTotal rounds).getD (idx - 1) ([], [])).2
      t hknd hklt hest hinvp (le_of_lt hprev_gt)
    refine ⟨⟨s2, r2, countTrue s2⟩, ?_, hcnt2, rfl⟩
    simp only [extendedRFEFit]
    simp only [hkeq, hteq, hcheck, hgs, hrfe2, hfi]
    rw [if_neg (by
      rw [hcount idx hidxlt]
      push_cast
      omega)]
    rw [if_neg hidx0]
    simp only [heq2]

/-- C3: for every history produced by the elimination engine under a valid
scheduler configuration, and every feasible target count `t` (at least 1
and at most the number of eliminable features), `ExtendedRFE.fit` retains
exactly the requested number of eliminable features: the fitted support
has exactly `t` true entries beyond the kept features — both when a
history round lands exactly on the target and when the schedule
undershoots and the rollback path refits and performs one sized-to-fit
extra elimination. -/
theorem claim_C3 (e : RfeEstimator) (cfg : RfeConfig) (nTotal : Nat)
    (penalty : Option (List ℚ)) (t s0 : Nat) (tp : Option (Nat × Nat))
    (hpf : ∀ pf, penalty = some pf → pf.length = nTotal)
    (hest : ∀ fs, e.hasCoef fs = true ∨ e.hasFeatImp fs = true)
    (hs0 : resolveStep cfg (nTotal - (keepFeaturesOf penalty).length) = .ok s0)
    (htp : resolveTuneParams cfg (nTotal - (keepFeaturesOf penalty).length) t = .ok tp)
    (ht1 : 1 ≤ t) (ht2 : t ≤ nTotal - (keepFeaturesOf penalty).length) :
    ∃ res : FitResult, extendedRFEFit e cfg nTotal penalty (some t) = .ok res ∧
      countTrue res.support = t + (keepFeaturesOf penalty).length := by
  obtain ⟨res, h1, h2, _⟩ := extendedRFEFit_retains e cfg nTotal penalty (some t) s0 tp
    hpf hest hs0 (by simpa using htp) (by simpa using ht1) (by simpa using ht2)
  exact ⟨res, h1, by simpa using h2⟩

/-- Witness for `claim_C3` on 5 features, step 2, target 2: the schedule
records counts 5, 3, 1 and skips the target, so the rollback path runs. -/
theorem claim_C3_witness :
    ∃ res : FitResult,
      extendedRFEFit eZ ⟨2, none, 1, false⟩ 5 none (some 2) = .ok res ∧
      countTrue res.support = 2 + (keepFeaturesOf none).length :=
  claim_C3 eZ ⟨2, none, 1, false⟩ 5 none 2 2 none
    (by intro pf h; cases h) (fun fs => Or.inl rfl)
    (by decide) (by decide) (by decide) (by decide)

/-- C10: when `n_features_to_select` is `None`, `ExtendedRFE.fit` selects
half of the eliminable features: with `n_eliminable` the total column
count minus the number of kept (zero-penalty-factor) features, the fitted
support retains exactly `n_eliminable / 2` (floor) eliminable features. -/
theorem claim_C10 (e : RfeEstimator) (cfg : RfeConfig) (nTotal : Nat)
    (penalty : Option (List ℚ)) (s0 : Nat) (tp : Option (Nat × Nat))
    (hpf : ∀ pf, penalty = some pf → pf.length = nTotal)
    (hest : ∀ fs, e.hasCoef fs = true ∨ e.hasFeatImp fs = true)
    (hs0 : resolveStep cfg (nTotal - (keepFeaturesOf penalty).length) = .ok s0)
    (htp : resolveTuneParams cfg (nTotal - (keepFeaturesOf penalty).length)
      ((nTotal - (keepFeaturesOf penalty).length) / 2) = .ok tp)
    (h2 : 2 ≤ nTotal - (keepFeaturesOf penalty).length) :
    ∃ res : FitResult, extendedRFEFit e cfg nTotal penalty none = .ok res ∧
      countTrue res.support = (nTotal - (keepFeaturesOf penalty).length) / 2 +
        (keepFeaturesOf penalty).length := by
  have h1 : 1 ≤ (nTotal - (keepFeaturesOf penalty).length) / 2 := by omega
  have hle : (nTotal - (keepFeaturesOf penalty).length) / 2 ≤
      nTotal - (keepFeaturesOf penalty).length := Nat.div_le_self _ _
  obtain ⟨res, hh1, hh2, _⟩ := extendedRFEFit_retains e cfg nTotal penalty none s0 tp
    hpf hest hs0 (by simpa using htp) (by simpa using h1) (by simpa using hle)
  exact ⟨res, hh1, by simpa using hh2⟩

/-- Witness for `claim_C10`: 6 features, no penalty column, target
defaults to 6 / 2 = 3. -/
theorem claim_C10_witness :
    ∃ res : FitResult,
      extendedRFEFit eZ ⟨1, none, 1, false⟩ 6 none none = .ok res ∧
      countTrue res.support = (6 - (keepFeaturesOf none).length) / 2 +
        (keepFeaturesOf none).length :=
  claim_C10 eZ ⟨1, none, 1, false⟩ 6 none 1 none
    (by intro pf h; cases h) (fun fs => Or.inl rfl)
    (by decide) (by decide) (by decide)

/-- A concrete estimator exposing neither `coef_` nor
`feature_importances_` after any fit. -/
def eBad : RfeEstimator := ⟨fun _ => false, fun _ => false, fun _ _ => [], fun _ _ => 0⟩

/-- C7: an estimator exposing neither `coef_` nor `feature_importances_`
makes every elimination round of `_rfe_fit` fail with the documented
unsupported-estimator error, but the extra refit of the rollback
(undershoot) path does not: `ExtendedRFE.fit` lines 305-308 have no
`else` branch, so the unassigned local `coefs` is read at line 311 and
Python raises `UnboundLocalError` instead of the documented error. -/
theorem claim_C7 :
    rfeFit eBad 4 [1] [] = .error .unsupportedEstimator ∧
    rollbackElim eBad [] 1 [true, true, false, false] [1, 1, 2, 2] =
      .error .unboundLocal ∧
    RfeErr.unboundLocal ≠ RfeErr.unsupportedEstimator :=
  ⟨by decide, by decide, by decide⟩

/-- C6 counterexample: with a configured transition point of 5 and a
winning feature count of 3 — the winning count falls below the transition
point — `ExtendedRFECV.fit` keeps the transition (`some 5`) for the final
run instead of disabling it as the claim states. -/
theorem claim_C6_counterexample :
    resolveTuneStepAtFinal (some 5) 20 3 = .ok (some 5) ∧ (3 : Nat) < 5 ∧
    (Except.ok (some 5) : Except RfeErr (Option Nat)) ≠ .ok none :=
  ⟨by decide, by decide, by decide⟩

/-- C6 (amended): for the final full-data run, the configured tuning
transition is disabled (set to none) exactly when the resolved transition
point is less than or equal to the winning feature count (the case where
keeping it would make the final run's range validation fail); when the
winning count is strictly below the transition point the transition is
kept. -/
theorem claim_C6_amended (a : ℚ) (nF t : Nat) (ha : 1 ≤ a ∨ (0 < a ∧ a < 1)) :
    ∃ tsa : Nat,
      (1 ≤ a → tsa = ratFloorNat a) ∧
      (¬(1 ≤ a) → tsa = ratFloorNat (max 1 (a * nF))) ∧
      (tsa ≤ t → resolveTuneStepAtFinal (some a) nF t = .ok none) ∧
      (t < tsa → resolveTuneStepAtFinal (some a) nF t = .ok (some tsa)) := by
  rcases ha with h | h
  · refine ⟨ratFloorNat a, fun _ => rfl, fun hn => absurd h hn, ?_, ?_⟩
    · intro hle
      simp only [resolveTuneStepAtFinal]
      rw [if_pos h, if_pos hle]
    · intro hgt
      simp only [resolveTuneStepAtFinal]
      rw [if_pos h, if_neg (by omega)]
  · have hn1 : ¬(1 ≤ a) := not_le.mpr h.2
    refine ⟨ratFloorNat (max 1 (a * nF)), fun h1 => absurd h1 hn1, fun _ => rfl, ?_, ?_⟩
    · intro hle
      simp only [resolveTuneStepAtFinal]
      rw [if_neg hn1, if_pos h, if_pos hle]
    · intro hgt
      simp only [resolveTuneStepAtFinal]
      rw [if_neg hn1, if_pos h, if_neg (by omega)]

/-- Witness for `claim_C6_amended` at transition 5 and winning counts on
both sides. -/
theorem claim_C6_amended_witness :
    ((1 : ℚ) ≤ 5 ∨ (0 < (5 : ℚ) ∧ (5 : ℚ) < 1)) ∧
    ∃ tsa : Nat,
      ((1 : ℚ) ≤ 5 → tsa = ratFloorNat 5) ∧
      (¬((1 : ℚ) ≤ 5) → tsa = ratFloorNat (max 1 (5 * (20 : Nat)))) ∧
      (tsa ≤ 3 → resolveTuneStepAtFinal (some 5) 20 3 = .ok none) ∧
      (3 < tsa → resolveTuneStepAtFinal (some 5) 20 3 = .ok (some tsa)) :=
  ⟨Or.inl (by norm_num), claim_C6_amended 5 20 3 (Or.inl (by norm_num))⟩

/-- C9 counterexample: one fold, count sequence `n_remaining_feature_steps_
= [2, 1]`, held-out score 10 at remaining-count 2 and 20 at
remaining-count 1. `grid_scores_[0]` is 20 while the sum across folds of
the score at `n_remaining_feature_steps_[0] = 2` divided by the one fold
is 10: the exposed grid is reversed relative to the exposed count
sequence, refuting the claimed index alignment. -/
theorem claim_C9_counterexample :
    (rfecvGridScores (sumCurves 2
      [foldScoreCurve (fun c => if c = 2 then 10 else 20) [2, 1]]) 1).getD 0 0 = 20 ∧
    (sumCurves 2 [foldScoreCurve (fun c => if c = 2 then 10 else 20) [2, 1]]).getD 0 0 /
      ((1 : Nat) : ℚ) = 10 ∧
    (20 : ℚ) ≠ 10 := by
  refine ⟨?_, ?_, by norm_num⟩
  · norm_num [rfecvGridScores, sumCurves, foldScoreCurve, List.range_succ]
  · norm_num [sumCurves, foldScoreCurve, List.range_succ]

/-- C9 (amended): after a cross-validated tuner fit, `grid_scores_[i]`
equals the sum across folds of the held-out score obtained at
remaining-feature-count `n_remaining_feature_steps_[len - 1 - i]`,
divided by the number of folds: the exposed score curve is indexed by the
reversed remaining-feature-count sequence, not by
`n_remaining_feature_steps_` itself. -/
theorem claim_C9_amended (folds : List (Nat → ℚ)) (nrfs : List Nat) (nSplits : Nat)
    (i : Nat) (hi : i < nrfs.length) :
    (rfecvGridScores (sumCurves nrfs.length
        (folds.map (fun f => foldScoreCurve f nrfs))) nSplits).getD i 0 =
      (folds.map (fun f => f (nrfs.getD (nrfs.length - 1 - i) 0))).sum / (nSplits : ℚ) := by
  have hlen : (sumCurves nrfs.length (folds.map fun f => foldScoreCurve f nrfs)).length
      = nrfs.length := by simp [sumCurves]
  have hgl : (rfecvGridScores (sumCurves nrfs.length
      (folds.map fun f => foldScoreCurve f nrfs)) nSplits).length = nrfs.length := by
    simp [rfecvGridScores, hlen]
  rw [List.getD_eq_getElem _ _ (by rw [hgl]; exact hi)]
  simp only [rfecvGridScores]
  rw [List.getElem_map, List.getElem_reverse]
  congr 1
  have hj : nrfs.length - 1 - i < nrfs.length := by omega
  have hagg : ∀ (j : Nat), j < nrfs.length →
      (sumCurves nrfs.length (folds.map fun f => foldScoreCurve f nrfs)).getD j 0 =
      (folds.map (fun f => f (nrfs.getD j 0))).sum := by
    intro j hjl
    rw [List.getD_eq_getElem _ _ (by rw [hlen]; exact hjl)]
    simp only [sumCurves]
    rw [List.getElem_map, List.getElem_range]
    rw [List.map_map]
    congr 1
    apply List.map_congr_left
    intro f _
    simp only [Function.comp_apply, foldScoreCurve]
    rw [List.getD_eq_getElem _ _ (by simpa using hjl), List.getElem_map]
    rw [List.getD_eq_getElem _ _ hjl]
  have hbound : (sumCurves nrfs.length (folds.map fun f => foldScoreCurve f nrfs)).length
      - 1 - i < (sumCurves nrfs.length (folds.map fun f => foldScoreCurve f nrfs)).length := by
    rw [hlen]
    omega
  rw [← List.getD_eq_getElem _ 0 hbound]
  have h1 : (sumCurves nrfs.length (folds.map fun f => foldScoreCurve f nrfs)).length
      - 1 - i = nrfs.length - 1 - i := by rw [hlen]
  rw [h1]
  exact hagg _ hj

/-- Witness for `claim_C9_amended` at the counterexample instance. -/
theorem claim_C9_amended_witness :
    0 < ([2, 1] : List Nat).length ∧
    (rfecvGridScores (sumCurves ([2, 1] : List Nat).length
        ([fun c => if c = 2 then (10 : ℚ) else 20].map
          (fun f => foldScoreCurve f [2, 1]))) 1).getD 0 0 =
      ([fun c => if c = 2 then (10 : ℚ) else 20].map
        (fun f => f (([2, 1] : List Nat).getD (([2, 1] : List Nat).length - 1 - 0) 0))).sum /
        ((1 : Nat) : ℚ) :=
  ⟨by decide, claim_C9_amended [fun c => if c = 2 then (10 : ℚ) else 20] [2, 1] 1 0
    (by decide)⟩

theorem argmaxAux_spec : ∀ (l : List ℚ), l ≠ [] →
    ∃ i v, argmaxAux l = some (i, v) ∧ i < l.length ∧ l.getD i 0 = v ∧
      (∀ k, k < l.length → l.getD k 0 ≤ v) ∧ (∀ k, k < i → l.getD k 0 < v) := by
  intro l
  induction l with
  | nil => intro h; exact absurd rfl h
  | cons x xs ih =>
    intro _
    match hxs : xs with
    | [] =>
      refine ⟨0, x, by simp [argmaxAux], by simp, by simp, ?_, ?_⟩
      · intro k hk
        simp at hk
        subst hk
        simp
      · intro k hk
        omega
    | y :: ys =>
      obtain ⟨i, v, haux, hilt, hval, hmax, hstrict⟩ := ih (by simp)
      by_cases hvx : v ≤ x
      · refine ⟨0, x, ?_, by simp, by simp, ?_, ?_⟩
        · show (match argmaxAux (y :: ys) with
            | none => some (0, x)
            | some (i2, v2) => if v2 ≤ x then some (0, x) else some (i2 + 1, v2)) =
            some (0, x)
          rw [haux]
          show (if v ≤ x then some (0, x) else some (i + 1, v) : Option (Nat × ℚ)) =
            some (0, x)
          rw [if_pos hvx]
        · intro k hk
          match k with
          | 0 => simp
          | k + 1 =>
            simp only [List.getD_cons_succ]
            exact le_trans (hmax k (by simpa using hk)) hvx
        · intro k hk
          omega
      · refine ⟨i + 1, v, ?_, by simpa using hilt, by simpa using hval, ?_, ?_⟩
        · show (match argmaxAux (y :: ys) with
            | none => some (0, x)
            | some (i2, v2) => if v2 ≤ x then some (0, x) else some (i2 + 1, v2)) =
            some (i + 1, v)
          rw [haux]
          show (if v ≤ x then some (0, x) else some (i + 1, v) : Option (Nat × ℚ)) =
            some (i + 1, v)
          rw [if_neg hvx]
        · intro k hk
          match k with
          | 0 =>
            simp only [List.getD_cons_zero]
            exact le_of_lt (lt_of_not_le hvx)
          | k + 1 =>
            simp only [List.getD_cons_succ]
            exact hmax k (by simpa using hk)
        · intro k hk
          match k with
          | 0 =>
            simp only [List.getD_cons_zero]
            exact lt_of_not_le hvx
          | k + 1 =>
            simp only [List.getD_cons_succ]
            exact hstrict k (by omega)

theorem getD_reverse {α : Type} (l : List α) (d : α) (k : Nat) (hk : k < l.length) :
    l.reverse.getD k d = l.getD (l.length - 1 - k) d := by
  rw [List.getD_eq_getElem _ _ (by simpa using hk),
    List.getD_eq_getElem _ _ (by omega)]
  exact List.getElem_reverse _

theorem rfecvSelect_min_argmax (nrfs : List Nat) (scores : List ℚ)
    (hlen : scores.length = nrfs.length) (hne : nrfs ≠ [])
    (hdec : List.Chain' (fun a b => b < a) nrfs) :
    (∃ i, i < nrfs.length ∧ rfecvSelect nrfs scores = nrfs.getD i 0 ∧
      ∀ k, k < nrfs.length → scores.getD k 0 ≤ scores.getD i 0) ∧
    ∀ j, j < nrfs.length → (∀ k, k < nrfs.length → scores.getD k 0 ≤ scores.getD j 0) →
      rfecvSelect nrfs scores ≤ nrfs.getD j 0 := by
  have hlpos : 0 < nrfs.length := List.length_pos.mpr hne
  have hsne : scores.reverse ≠ [] := by
    simp only [ne_eq, List.reverse_eq_nil_iff]
    intro h
    rw [h] at hlen
    simp at hlen
    omega
  obtain ⟨j0, v, haux, hj0, hval, hmax, hstrict⟩ := argmaxAux_spec scores.reverse hsne
  have hj0' : j0 < nrfs.length := by
    rw [List.length_reverse, hlen] at hj0
    exact hj0
  have hsel : rfecvSelect nrfs scores = nrfs.getD (nrfs.length - 1 - j0) 0 := by
    rw [rfecvSelect, argmaxIdx, haux]
    show nrfs.reverse.getD j0 0 = nrfs.getD (nrfs.length - 1 - j0) 0
    exact getD_reverse nrfs 0 j0 (by omega)
  have hscoreAt : ∀ k, k < nrfs.length →
      scores.reverse.getD k 0 = scores.getD (nrfs.length - 1 - k) 0 := by
    intro k hk
    rw [getD_reverse scores 0 k (by omega), hlen]
  have hpw : (nrfs.reverse).Pairwise (fun a b => a < b) := by
    rw [← List.chain'_iff_pairwise]
    rw [List.chain'_reverse]
    exact hdec
  have hmono : ∀ a b, a ≤ b → b < nrfs.length →
      nrfs.reverse.getD a 0 ≤ nrfs.reverse.getD b 0 := by
    intro a b hab hb
    rcases Nat.lt_or_ge a b with h | h
    · have h2 := List.pairwise_iff_getElem.mp hpw a b
        (by simpa using lt_of_lt_of_le h (le_of_lt hb)) (by simpa using hb) h
      rw [List.getD_eq_getElem _ _ (by simpa using lt_of_lt_of_le h (le_of_lt hb)),
        List.getD_eq_getElem _ _ (by simpa using hb)]
      exact le_of_lt h2
    · have heq : a = b := by omega
      rw [heq]
  have hi_val : scores.getD (nrfs.length - 1 - j0) 0 = v :=
    ((hscoreAt j0 hj0').symm).trans hval
  constructor
  · refine ⟨nrfs.length - 1 - j0, by omega, hsel, ?_⟩
    intro k hk
    rw [hi_val]
    have h2 := hscoreAt (nrfs.length - 1 - k) (by omega)
    have he2 : nrfs.length - 1 - (nrfs.length - 1 - k) = k := by omega
    rw [he2] at h2
    rw [← h2]
    exact hmax _ (by rw [List.length_reverse, hlen]; omega)
  · intro j hj hjmax
    have h2 := hscoreAt (nrfs.length - 1 - j) (by omega)
    have he2 : nrfs.length - 1 - (nrfs.length - 1 - j) = j := by omega
    rw [he2] at h2
    have hvj : scores.reverse.getD (nrfs.length - 1 - j) 0 = v := by
      rw [h2]
      apply le_antisymm
      · rw [← h2]
        exact hmax _ (by rw [List.length_reverse, hlen]; omega)
      · rw [← hi_val]
        exact hjmax _ (by omega)
    have hge : j0 ≤ nrfs.length - 1 - j := by
      by_contra hcon
      have h3 := hstrict (nrfs.length - 1 - j) (by omega)
      rw [hvj] at h3
      exact lt_irrefl v h3
    rw [hsel]
    have h4 : nrfs.getD (nrfs.length - 1 - j0) 0 = nrfs.reverse.getD j0 0 :=
      (getD_reverse nrfs 0 j0 (by omega)).symm
    have h5 : nrfs.getD j 0 = nrfs.reverse.getD (nrfs.length - 1 - j) 0 := by
      rw [getD_reverse nrfs 0 (nrfs.length - 1 - j) (by omega)]
      have he3 : nrfs.length - 1 - (nrfs.length - 1 - j) = j := by omega
      rw [he3]
    rw [h4, h5]
    exact hmono j0 (nrfs.length - 1 - j) hge (by omega)

/-- C1: in cross-validated tuning, the selected feature count (computed by
reversing the across-fold summed score curve and the recorded
remaining-feature-count sequence and taking `np.argmax`) attains the
maximum aggregate score and is the smallest count among all recorded
counts attaining that maximum; in particular, on a tie the smaller count
wins. -/
theorem claim_C1 (nrfs : List Nat) (folds : List (Nat → ℚ))
    (hne : nrfs ≠ []) (hdec : List.Chain' (fun a b => b < a) nrfs) :
    (∃ i, i < nrfs.length ∧
      rfecvSelect nrfs (sumCurves nrfs.length (folds.map fun f => foldScoreCurve f nrfs)) =
        nrfs.getD i 0 ∧
      ∀ k, k < nrfs.length →
        (sumCurves nrfs.length (folds.map fun f => foldScoreCurve f nrfs)).getD k 0 ≤
        (sumCurves nrfs.length (folds.map fun f => foldScoreCurve f nrfs)).getD i 0) ∧
    ∀ j, j < nrfs.length →
      (∀ k, k < nrfs.length →
        (sumCurves nrfs.length (folds.map fun f => foldScoreCurve f nrfs)).getD k 0 ≤
        (sumCurves nrfs.length (folds.map fun f => foldScoreCurve f nrfs)).getD j 0) →
      rfecvSelect nrfs (sumCurves nrfs.length (folds.map fun f => foldScoreCurve f nrfs)) ≤
        nrfs.getD j 0 :=
  rfecvSelect_min_argmax nrfs _ (by simp [sumCurves]) hne hdec

/-- Witness for `claim_C1`: counts [3, 2, 1] with a single fold scoring 5
at counts 3 and 2 (a tie at the maximum) and 0 at count 1. -/
theorem claim_C1_witness :
    (([3, 2, 1] : List Nat) ≠ []) ∧
    List.Chain' (fun a b => b < a) ([3, 2, 1] : List Nat) ∧
    ((∃ i, i < ([3, 2, 1] : List Nat).length ∧
      rfecvSelect [3, 2, 1] (sumCurves ([3, 2, 1] : List Nat).length
        ([fun c => if c = 1 then (0 : ℚ) else 5].map
          (fun f => foldScoreCurve f [3, 2, 1]))) = ([3, 2, 1] : List Nat).getD i 0 ∧
      ∀ k, k < ([3, 2, 1] : List Nat).length →
        (sumCurves ([3, 2, 1] : List Nat).length
          ([fun c => if c = 1 then (0 : ℚ) else 5].map
            (fun f => foldScoreCurve f [3, 2, 1]))).getD k 0 ≤
        (sumCurves ([3, 2, 1] : List Nat).length
          ([fun c => if c = 1 then (0 : ℚ) else 5].map
            (fun f => foldScoreCurve f [3, 2, 1]))).getD i 0) ∧
    ∀ j, j < ([3, 2, 1] : List Nat).length →
      (∀ k, k < ([3, 2, 1] : List Nat).length →
        (sumCurves ([3, 2, 1] : List Nat).length
          ([fun c => if c = 1 then (0 : ℚ) else 5].map
            (fun f => foldScoreCurve f [3, 2, 1]))).getD k 0 ≤
        (sumCurves ([3, 2, 1] : List Nat).length
          ([fun c => if c = 1 then (0 : ℚ) else 5].map
            (fun f => foldScoreCurve f [3, 2, 1]))).getD j 0) →
      rfecvSelect [3, 2, 1] (sumCurves ([3, 2, 1] : List Nat).length
        ([fun c => if c = 1 then (0 : ℚ) else 5].map
          (fun f => foldScoreCurve f [3, 2, 1]))) ≤ ([3, 2, 1] : List Nat).getD j 0) :=
  ⟨by decide, by simp,
    claim_C1 [3, 2, 1] [fun c => if c = 1 then (0 : ℚ) else 5] (by decide) (by simp)⟩
